import Mathlib

/-!
Verification of `scripts/clean_dune_manual.py`.

The script's `clean` function reads a text file, applies a fixed sequence of
substitutions, and writes the result:

  text = unicodedata.normalize("NFKC", raw)
  text = re.sub(r"[\x00-\x08\x0b\x0c\x0e-\x1f]", " ", text)
  text = re.sub(r"\bD U N E\s*\|\s*A D V E N T U R E S.*?\n", "", text, flags=re.I)
  text = re.sub(r"\b\d{1,3}\s*$", "", text, flags=re.M)
  text = re.sub(r"-\n([a-z])", r"\1", text, flags=re.I)
  text = re.sub(r"\n{3,}", "\n\n", text)
  text = re.sub(r"[ \t]+", " ", text)
  text = textwrap.dedent(text).strip()

Text is embedded as `List Char`.  Each `re.sub` call is embedded as an
executable left-to-right scanner that is hand-specialised to its pattern,
with the exact leftmost, non-overlapping match semantics of `re.sub`
(including the backtracking of greedy `\s*` before the multiline `$`).
Word characters (`\b`), digits (`\d`) and the letter class `[a-z]` with
`re.I` are modelled over their ASCII meaning; Python's Unicode whitespace
set for `\s`, `str.strip` and `str.isspace` is modelled in full.
`textwrap.dedent` follows the CPython (<= 3.12) algorithm: whitespace-only
lines are blanked, then the longest common `[ \t]` indentation of the
remaining nonempty lines is removed from every line that starts with it.
-/

/-- Text is a list of characters (Unicode code points). -/
abbrev Text := List Char

/-- Horizontal whitespace, the character class `[ \t]`. -/
def isHT (c : Char) : Bool := c = ' ' || c = '\t'

/-- Python's Unicode whitespace set: the characters matched by `\s`, stripped
by `str.strip()` and recognised by `str.isspace()`. -/
def pyIsSpace (c : Char) : Bool :=
  let n := c.toNat
  (0x09 ≤ n && n ≤ 0x0d) || n == 0x1c || n == 0x1d || n == 0x1e || n == 0x1f ||
  n == 0x20 || n == 0x85 || n == 0xa0 || n == 0x1680 ||
  (0x2000 ≤ n && n ≤ 0x200a) || n == 0x2028 || n == 0x2029 ||
  n == 0x202f || n == 0x205f || n == 0x3000

/-- The character class `[\x00-\x08\x0b\x0c\x0e-\x1f]` of the control-character
scrub: C0 control characters other than tab (09), newline (0a) and carriage
return (0d). -/
def isScrubbed (c : Char) : Bool :=
  let n := c.toNat
  n ≤ 0x08 || n == 0x0b || n == 0x0c || (0x0e ≤ n && n ≤ 0x1f)

/-- Word characters for `\b` (regex `\w`), over ASCII: letters, digits and
underscore.  (Python's `\w` additionally covers non-ASCII word characters;
the theorems below only exercise ASCII inputs.) -/
def isWordChar (c : Char) : Bool := c.isAlphanum || c = '_'

/-- ASCII decimal digit, regex `\d` over ASCII. -/
def isAsciiDigit (c : Char) : Bool := c.isDigit

/-- ASCII letter: the class `[a-z]` under `re.IGNORECASE`, over ASCII.
(The exotic Unicode case-foldings of `re.I` are outside the ASCII fragment
exercised below.) -/
def isAsciiAlpha (c : Char) : Bool := c.isAlpha

/-- `unicodedata.normalize("NFKC", raw)`.  NFKC acts as the identity on every
ASCII string; it is modelled as the identity, and all concrete inputs below
are ASCII.  The full Unicode normalization tables are outside the embedding. -/
def normalizeNFKC (t : Text) : Text := t

/-- Pass 1: `re.sub(r"[\x00-\x08\x0b\x0c\x0e-\x1f]", " ", text)`. -/
def scrub (t : Text) : Text := t.map (fun c => if isScrubbed c then ' ' else c)

/-- The literal part `D U N E` of the banner pattern. -/
def bannerHead : Text := ['D', ' ', 'U', ' ', 'N', ' ', 'E']

/-- The literal part `A D V E N T U R E S` of the banner pattern. -/
def bannerTail : Text := ['A', ' ', 'D', ' ', 'V', ' ', 'E', ' ', 'N', ' ', 'T', ' ', 'U', ' ', 'R', ' ', 'E', ' ', 'S']

/-- Consume a literal pattern case-insensitively (`re.I`); returns the number
of characters consumed and the rest. -/
def consumeCI : Text → Text → Option (Nat × Text)
  | [], l => some (0, l)
  | _ :: _, [] => none
  | p :: ps, c :: cs =>
    if c.toLower = p.toLower then
      match consumeCI ps cs with
      | some (n, r) => some (n + 1, r)
      | none => none
    else none

/-- Consume a maximal run of `\s` characters; returns its length and the rest. -/
def consumeSpacesN : Text → Nat × Text
  | [] => (0, [])
  | c :: cs =>
    if pyIsSpace c then
      let p := consumeSpacesN cs
      (p.1 + 1, p.2)
    else (0, c :: cs)

/-- Consume `.*?\n`: the (non-greedy) run of non-newline characters up to and
including the first newline; `none` if no newline remains. -/
def consumeToNl : Text → Option Nat
  | [] => none
  | c :: cs =>
    if c = '\n' then some 1
    else
      match consumeToNl cs with
      | some n => some (n + 1)
      | none => none

/-- Match the banner pattern `\bD U N E\s*\|\s*A D V E N T U R E S.*?\n`
(case-insensitive) at the head of `l`; `prevW` says whether the character
before this position is a word character (for `\b`).  Returns the length of
the match. -/
def matchBannerLen (prevW : Bool) (l : Text) : Option Nat :=
  if prevW then none
  else
    match consumeCI bannerHead l with
    | none => none
    | some (n1, r1) =>
      match (consumeSpacesN r1).2 with
      | [] => none
      | c2 :: r3 =>
        if c2 = '|' then
          match consumeCI bannerTail (consumeSpacesN r3).2 with
          | none => none
          | some (n2, r5) =>
            match consumeToNl r5 with
            | none => none
            | some k => some (n1 + (consumeSpacesN r1).1 + 1 + (consumeSpacesN r3).1 + n2 + k)
        else none

/-- Fuelled scanner for pass 2,
`re.sub(r"\bD U N E\s*\|\s*A D V E N T U R E S.*?\n", "", text, flags=re.I)`:
leftmost non-overlapping matches are deleted.  The fuel only serves
termination; `bannerSub` supplies `l.length`, which always suffices since
every step consumes at least one character. -/
def bannerSubF : Nat → Bool → Text → Text
  | 0, _, l => l
  | _ + 1, _, [] => []
  | fuel + 1, prevW, c :: cs =>
    match matchBannerLen prevW (c :: cs) with
    | some k => bannerSubF fuel false (List.drop k (c :: cs))
    | none => c :: bannerSubF fuel (isWordChar c) cs

/-- Pass 2: remove every banner match.  After a match the scan resumes behind
the consumed newline, so the previous character is non-word. -/
def bannerSub (prevW : Bool) (l : Text) : Text := bannerSubF l.length prevW l

/-- Consume a maximal run of ASCII digits; returns its length and the rest. -/
def takeDigits : Text → Nat × Text
  | [] => (0, [])
  | c :: cs =>
    if isAsciiDigit c then
      let p := takeDigits cs
      (p.1 + 1, p.2)
    else (0, c :: cs)

/-- Consume a maximal run of `\s` characters; returns the run itself and the
rest. -/
def takeSpacesList : Text → Text × Text
  | [] => ([], [])
  | c :: cs =>
    if pyIsSpace c then
      let p := takeSpacesList cs
      (c :: p.1, p.2)
    else ([], c :: cs)

/-- Index of the last newline in a list, if any. -/
def lastNlIdx : Text → Option Nat
  | [] => none
  | c :: cs =>
    match lastNlIdx cs with
    | some i => some (i + 1)
    | none => if c = '\n' then some 0 else none

/-- Match `\b\d{1,3}\s*$` (multiline `$`) at the head of `l`.  `\d{1,3}`
cannot stop inside a digit run (the following digit fails `\s*$` and `\b`
blocks later starts), so a run of more than three digits never matches.
The greedy `\s*` then backtracks to the last position where `$` holds:
end of string, or just before the last newline of the whitespace run.
Returns the length of the match. -/
def matchPageLen (prevW : Bool) (l : Text) : Option Nat :=
  if prevW then none
  else
    if (takeDigits l).1 = 0 then none
    else if 3 < (takeDigits l).1 then none
    else
      match (takeSpacesList (takeDigits l).2).2 with
      | [] => some ((takeDigits l).1 + (takeSpacesList (takeDigits l).2).1.length)
      | _ :: _ =>
        match lastNlIdx (takeSpacesList (takeDigits l).2).1 with
        | some i => some ((takeDigits l).1 + i)
        | none => none

/-- Fuelled scanner for pass 3, `re.sub(r"\b\d{1,3}\s*$", "", text, flags=re.M)`.
After a match the scan resumes behind the match; `\b` at the next position is
decided by the last consumed character of the original text. -/
def pagenumSubF : Nat → Bool → Text → Text
  | 0, _, l => l
  | _ + 1, _, [] => []
  | fuel + 1, prevW, c :: cs =>
    match matchPageLen prevW (c :: cs) with
    | some k => pagenumSubF fuel (isWordChar (((c :: cs).take k).getLastD ' ')) (List.drop k (c :: cs))
    | none => c :: pagenumSubF fuel (isWordChar c) cs

/-- Pass 3: remove every standalone-page-number match. -/
def pagenumSub (prevW : Bool) (l : Text) : Text := pagenumSubF l.length prevW l

/-- Pass 4: `re.sub(r"-\n([a-z])", r"\1", text, flags=re.I)` — a hyphen at a
line end directly followed by a letter is joined (the hyphen and newline are
deleted, the letter kept); the scan resumes after the letter. -/
def hyphenSub : Text → Text
  | [] => []
  | [c] => [c]
  | [c, d] => [c, d]
  | c :: d :: e :: rest =>
    if c = '-' ∧ d = '\n' ∧ isAsciiAlpha e = true then e :: hyphenSub rest
    else c :: hyphenSub (d :: e :: rest)

/-- Replacement for a run of `k` pending newlines under `\n{3,}` → `\n\n`:
runs of three or more become two, shorter runs are kept. -/
def nlEmit (k : Nat) : Text := if 3 ≤ k then ['\n', '\n'] else List.replicate k '\n'

/-- Scanner for pass 5, `re.sub(r"\n{3,}", "\n\n", text)`; `k` counts the
newline run in progress. -/
def nlCollapseAux : Nat → Text → Text
  | k, [] => nlEmit k
  | k, c :: cs =>
    if c = '\n' then nlCollapseAux (k + 1) cs
    else nlEmit k ++ c :: nlCollapseAux 0 cs

/-- Pass 5: collapse every run of three or more newlines to exactly two. -/
def nlCollapse (t : Text) : Text := nlCollapseAux 0 t

/-- Scanner for pass 6, `re.sub(r"[ \t]+", " ", text)`; `inRun` says whether
the previous character belonged to a `[ \t]` run already replaced by one
space. -/
def spCollapseAux : Bool → Text → Text
  | _, [] => []
  | inRun, c :: cs =>
    if isHT c then
      if inRun then spCollapseAux true cs
      else ' ' :: spCollapseAux true cs
    else c :: spCollapseAux false cs

/-- Pass 6: collapse every run of spaces and tabs to a single space. -/
def spCollapse (t : Text) : Text := spCollapseAux false t

/-- Split a text into its lines at `'\n'` (like `str.split('\n')`: `n`
newlines yield `n + 1` lines, and the separators are dropped). -/
def splitNl : Text → List Text
  | [] => [[]]
  | c :: cs =>
    if c = '\n' then [] :: splitNl cs
    else
      match splitNl cs with
      | [] => [[c]]
      | l :: ls => (c :: l) :: ls

/-- Join lines with `'\n'` (like `'\n'.join(lines)`). -/
def joinNl : List Text → Text
  | [] => []
  | [l] => l
  | l :: m :: ls => l ++ '\n' :: joinNl (m :: ls)

/-- A line consisting only of horizontal whitespace, and nonempty: the
multiline pattern `^[ \t]+$` of `textwrap.dedent`. -/
def wsOnly (l : Text) : Bool := !l.isEmpty && l.all isHT

/-- Longest common prefix of two lists; `textwrap.dedent` folds this over the
indentations to obtain the margin. -/
def lcp : Text → Text → Text
  | a :: as, b :: bs => if a = b then a :: lcp as bs else []
  | _, _ => []

/-- First step of `textwrap.dedent`: the multiline `re.sub('^[ \t]+$', '', text)`
that turns whitespace-only lines into empty lines. -/
def blankWs (lines : List Text) : List Text := lines.map (fun l => if wsOnly l then [] else l)

/-- Second step of `textwrap.dedent`: the margin is the longest common prefix
of the `[ \t]` indentations of the nonempty lines (the lines matched by
`(^[ \t]*)(?:[^ \t\n])`). -/
def marginOf (lines : List Text) : Text :=
  match (lines.filter (fun l => !l.isEmpty)).map (fun l => l.takeWhile isHT) with
  | [] => []
  | i :: is => is.foldl lcp i

/-- Third step of `textwrap.dedent`: `re.sub(r'(?m)^' + margin, '', text)`
removes one copy of the margin from every line that starts with it. -/
def dropMargin (margin l : Text) : Text :=
  if margin.isPrefixOf l then l.drop margin.length else l

/-- The line-level algorithm of `textwrap.dedent` (CPython <= 3.12): blank the
whitespace-only lines, compute the longest common `[ \t]` indentation of the
remaining nonempty lines, and remove it from the start of every line that
carries it (skipped when the margin is empty, `if margin:`). -/
def dedentLines (lines : List Text) : List Text :=
  if (marginOf (blankWs lines)).isEmpty then blankWs lines
  else (blankWs lines).map (dropMargin (marginOf (blankWs lines)))

/-- `textwrap.dedent`. -/
def dedent (t : Text) : Text := joinNl (dedentLines (splitNl t))

/-- `str.strip()`: drop Python whitespace from both ends. -/
def pyStrip (t : Text) : Text :=
  ((t.dropWhile pyIsSpace).reverse.dropWhile pyIsSpace).reverse

/-- The in-memory transform of `clean`: the eight passes in source order. -/
def cleanL (t : Text) : Text :=
  pyStrip (dedent (spCollapse (nlCollapse (hyphenSub (pagenumSub false
    (bannerSub false (scrub (normalizeNFKC t))))))))

/-- `clean`'s transform on `String`s. -/
def cleanText (s : String) : String := String.mk (cleanL s.data)

/-- A filesystem, as an association list from path to content; a write
prepends, so the most recent entry is the file's content. -/
abbrev FS := List (String × String)

/-- Read a file: the content of the most recent entry for the path, if any
(`Path.read_text` succeeds exactly on present files; `errors="ignore"` makes
decoding total). -/
def fsRead : FS → String → Option String
  | [], _ => none
  | (p, v) :: fs, q => if q = p then some v else fsRead fs q

/-- Write a file. -/
def fsWrite (fs : FS) (p v : String) : FS := (p, v) :: fs

/-- The run structure of `clean(in_path, out_path)`: read the source in full;
if that fails the error propagates and nothing is written; otherwise the
whole transform runs in memory and only then is the destination written. -/
def cleanRun (fs : FS) (inPath outPath : String) : Except String FS :=
  match fsRead fs inPath with
  | none => Except.error "No such file or directory"
  | some raw => Except.ok (fsWrite fs outPath (cleanText raw))

/-- Three consecutive newlines occur somewhere in the text. -/
def hasTripleNl : Text → Bool
  | [] => false
  | [_] => false
  | [_, _] => false
  | c1 :: c2 :: c3 :: cs => (c1 = '\n' && c2 = '\n' && c3 = '\n') || hasTripleNl (c2 :: c3 :: cs)

/-- Two consecutive spaces occur somewhere in the text. -/
def hasDoubleSpace : Text → Bool
  | [] => false
  | [_] => false
  | c1 :: c2 :: cs => (c1 = ' ' && c2 = ' ') || hasDoubleSpace (c2 :: cs)

/-- Some character of the text satisfies the scrub class. -/
def hasScrubbable (t : Text) : Bool := t.any isScrubbed

/-- The text neither starts nor ends with Python whitespace. -/
def trimmedB (t : Text) : Bool :=
  (match t.head? with
   | some c => !pyIsSpace c
   | none => true) &&
  (match t.getLast? with
   | some c => !pyIsSpace c
   | none => true)

/-- Length of the leading newline run. -/
def nlPre : Text → Nat
  | [] => 0
  | c :: cs => if c = '\n' then nlPre cs + 1 else 0

/-- Append a character to the last line of a line list (helper for relating
`splitNl` and `List.reverse`). -/
def endCons : List Text → Char → List Text
  | [], c => [[c]]
  | [l], c => [l ++ [c]]
  | l :: m :: ls, c => l :: endCons (m :: ls) c

/-- A line that `textwrap.dedent`'s whitespace-only-line blanking leaves
unchanged: empty, or containing some non-`[ \t]` character. -/
def lineNonWs (l : Text) : Prop := l = [] ∨ ∃ c ∈ l, isHT c = false

/-- Every character is a lowercase ASCII letter. -/
def allLower (t : Text) : Bool := t.all (fun c => c.isLower)

/-- Every character is a lowercase ASCII letter or a space. -/
def allLowerSp (t : Text) : Bool := t.all (fun c => c.isLower || c = ' ')

/-! ### Consumption bounds for the hand-rolled matchers -/

theorem consumeCI_length : ∀ {ps l : Text} {n : Nat} {r : Text},
    consumeCI ps l = some (n, r) → n + r.length = l.length := by
  intro ps
  induction ps with
  | nil =>
    intro l n r h
    simp [consumeCI] at h
    simp [h.1.symm, h.2]
  | cons p ps ih =>
    intro l n r h
    cases l with
    | nil => simp [consumeCI] at h
    | cons c cs =>
      simp only [consumeCI] at h
      by_cases hc : c.toLower = p.toLower
      · simp only [hc, if_pos rfl] at h
        rcases hm : consumeCI ps cs with _ | ⟨m, r'⟩ <;> rw [hm] at h
        · simp at h
        · simp at h
          have := ih hm
          simp [← h.1, h.2.symm, List.length_cons]
          omega
      · simp [hc] at h

theorem consumeSpacesN_length (l : Text) :
    (consumeSpacesN l).1 + (consumeSpacesN l).2.length = l.length := by
  induction l with
  | nil => simp [consumeSpacesN]
  | cons c cs ih =>
    simp only [consumeSpacesN]
    by_cases hc : pyIsSpace c
    · simp [hc, List.length_cons]
      omega
    · simp [hc]

theorem consumeToNl_bounds : ∀ {l : Text} {n : Nat},
    consumeToNl l = some n → 1 ≤ n ∧ n ≤ l.length := by
  intro l
  induction l with
  | nil => intro n h; simp [consumeToNl] at h
  | cons c cs ih =>
    intro n h
    simp only [consumeToNl] at h
    by_cases hc : c = '\n'
    · simp [hc] at h
      simp [← h]
    · simp only [hc, if_neg hc] at h
      rcases hm : consumeToNl cs with _ | m <;> rw [hm] at h
      · simp at h
      · simp at h
        have := ih hm
        simp [← h, List.length_cons]
        omega

theorem matchBannerLen_bounds : ∀ {p : Bool} {l : Text} {k : Nat},
    matchBannerLen p l = some k → 1 ≤ k ∧ k ≤ l.length := by
  intro p l k h
  by_cases hp : p
  · simp [matchBannerLen, hp] at h
  · rcases h1 : consumeCI bannerHead l with _ | ⟨n1, r1⟩
    · simp [matchBannerLen, hp, h1] at h
    · rcases h2 : consumeSpacesN r1 with ⟨s1, r2⟩
      rcases r2 with _ | ⟨c2, r3⟩
      · simp [matchBannerLen, hp, h1, h2] at h
      · by_cases hc2 : c2 = '|'
        · rcases h3 : consumeSpacesN r3 with ⟨s2, r4⟩
          rcases h4 : consumeCI bannerTail r4 with _ | ⟨n2, r5⟩
          · simp [matchBannerLen, hp, h1, h2, h3, h4, hc2] at h
          · rcases h5 : consumeToNl r5 with _ | kn
            · simp [matchBannerLen, hp, h1, h2, h3, h4, h5, hc2] at h
            · simp [matchBannerLen, hp, h1, h2, h3, h4, h5, hc2] at h
              have b1 := consumeCI_length h1
              have b2 := consumeSpacesN_length r1
              have b3 := consumeSpacesN_length r3
              have b4 := consumeCI_length h4
              have b5 := consumeToNl_bounds h5
              rw [h2] at b2
              rw [h3] at b3
              simp at b2 b3
              omega
        · simp [matchBannerLen, hp, h1, h2, hc2] at h

theorem takeDigits_length (l : Text) :
    (takeDigits l).1 + (takeDigits l).2.length = l.length := by
  induction l with
  | nil => simp [takeDigits]
  | cons c cs ih =>
    simp only [takeDigits]
    by_cases hc : isAsciiDigit c
    · simp [hc, List.length_cons]
      omega
    · simp [hc]

theorem takeSpacesList_length (l : Text) :
    (takeSpacesList l).1.length + (takeSpacesList l).2.length = l.length := by
  induction l with
  | nil => simp [takeSpacesList]
  | cons c cs ih =>
    simp only [takeSpacesList]
    by_cases hc : pyIsSpace c
    · simp [hc, List.length_cons]
      omega
    · simp [hc]

theorem lastNlIdx_lt : ∀ {l : Text} {i : Nat}, lastNlIdx l = some i → i < l.length := by
  intro l
  induction l with
  | nil => intro i h; simp [lastNlIdx] at h
  | cons c cs ih =>
    intro i h
    simp only [lastNlIdx] at h
    rcases hm : lastNlIdx cs with _ | j <;> rw [hm] at h
    · by_cases hc : c = '\n'
      · simp [hc] at h
        simp [← h]
      · simp [hc] at h
    · simp at h
      have := ih hm
      simp [← h, List.length_cons]
      omega

theorem matchPageLen_bounds : ∀ {p : Bool} {l : Text} {k : Nat},
    matchPageLen p l = some k → 1 ≤ k ∧ k ≤ l.length := by
  intro p l k h
  by_cases hp : p
  · simp [matchPageLen, hp] at h
  · rcases h1 : takeDigits l with ⟨d, rest⟩
    by_cases hd0 : d = 0
    · simp [matchPageLen, hp, h1, hd0] at h
    · by_cases hd3 : 3 < d
      · simp [matchPageLen, hp, h1, hd0, hd3] at h
      · have b1 := takeDigits_length l
        rw [h1] at b1
        simp at b1
        rcases h2 : takeSpacesList rest with ⟨sp, r⟩
        have b2 := takeSpacesList_length rest
        rw [h2] at b2
        simp at b2
        rcases r with _ | ⟨c, r'⟩
        · simp [matchPageLen, hp, h1, h2, hd0, hd3] at h
          simp at b2
          omega
        · rcases h3 : lastNlIdx sp with _ | i
          · simp [matchPageLen, hp, h1, h2, h3, hd0, hd3] at h
          · simp [matchPageLen, hp, h1, h2, h3, hd0, hd3] at h
            have := lastNlIdx_lt h3
            omega

/-! ### Step equations for the fuelled scanners -/

theorem matchBannerLen_nil (p : Bool) : matchBannerLen p [] = none := by
  cases p <;> rfl

theorem matchPageLen_nil (p : Bool) : matchPageLen p [] = none := by
  cases p <;> rfl

theorem bannerSubF_succ (fuel : Nat) (p : Bool) (c : Char) (cs : Text) :
    bannerSubF (fuel + 1) p (c :: cs) =
      match matchBannerLen p (c :: cs) with
      | some k => bannerSubF fuel false (List.drop k (c :: cs))
      | none => c :: bannerSubF fuel (isWordChar c) cs := rfl

theorem bannerSubF_irrel : ∀ (f1 : Nat) (f2 : Nat) (p : Bool) (l : Text),
    l.length ≤ f1 → l.length ≤ f2 → bannerSubF f1 p l = bannerSubF f2 p l := by
  intro f1
  induction f1 with
  | zero =>
    intro f2 p l h1 h2
    have : l = [] := by cases l with
      | nil => rfl
      | cons c cs => simp at h1
    subst this
    cases f2 <;> rfl
  | succ f1 ih =>
    intro f2 p l h1 h2
    cases l with
    | nil => cases f2 <;> rfl
    | cons c cs =>
      cases f2 with
      | zero => simp at h2
      | succ f2 =>
        rw [bannerSubF_succ, bannerSubF_succ]
        simp only [List.length_cons] at h1 h2
        rcases hm : matchBannerLen p (c :: cs) with _ | k
        · exact congrArg _ (ih f2 (isWordChar c) cs (by omega) (by omega))
        · have hb := matchBannerLen_bounds hm
          have hd : (List.drop k (c :: cs)).length ≤ cs.length := by
            simp [List.length_drop]
            omega
          exact ih f2 false _ (by omega) (by omega)

theorem bannerSubF_eq (fuel : Nat) (p : Bool) (l : Text) (h : l.length ≤ fuel) :
    bannerSubF fuel p l = bannerSub p l :=
  bannerSubF_irrel fuel l.length p l h (Nat.le_refl _)

theorem bannerSub_nil (p : Bool) : bannerSub p [] = [] := rfl

theorem bannerSub_cons_none {p : Bool} {c : Char} {cs : Text}
    (h : matchBannerLen p (c :: cs) = none) :
    bannerSub p (c :: cs) = c :: bannerSub (isWordChar c) cs := by
  simp only [bannerSub, List.length_cons, bannerSubF_succ, h]

theorem bannerSub_cons_some {p : Bool} {l : Text} {k : Nat}
    (h : matchBannerLen p l = some k) :
    bannerSub p l = bannerSub false (List.drop k l) := by
  obtain ⟨c, cs, rfl⟩ : ∃ c cs, l = c :: cs := by
    cases l with
    | nil => rw [matchBannerLen_nil] at h; exact absurd h (by simp)
    | cons c cs => exact ⟨_, _, rfl⟩
  have hb := matchBannerLen_bounds h
  simp only [List.length_cons] at hb
  simp only [bannerSub, List.length_cons, bannerSubF_succ, h]
  apply bannerSubF_irrel
  · simp [List.length_drop]; omega
  · exact Nat.le_refl _

theorem pagenumSubF_succ (fuel : Nat) (p : Bool) (c : Char) (cs : Text) :
    pagenumSubF (fuel + 1) p (c :: cs) =
      match matchPageLen p (c :: cs) with
      | some k => pagenumSubF fuel (isWordChar (((c :: cs).take k).getLastD ' ')) (List.drop k (c :: cs))
      | none => c :: pagenumSubF fuel (isWordChar c) cs := rfl

theorem pagenumSubF_irrel : ∀ (f1 : Nat) (f2 : Nat) (p : Bool) (l : Text),
    l.length ≤ f1 → l.length ≤ f2 → pagenumSubF f1 p l = pagenumSubF f2 p l := by
  intro f1
  induction f1 with
  | zero =>
    intro f2 p l h1 h2
    have : l = [] := by cases l with
      | nil => rfl
      | cons c cs => simp at h1
    subst this
    cases f2 <;> rfl
  | succ f1 ih =>
    intro f2 p l h1 h2
    cases l with
    | nil => cases f2 <;> rfl
    | cons c cs =>
      cases f2 with
      | zero => simp at h2
      | succ f2 =>
        rw [pagenumSubF_succ, pagenumSubF_succ]
        simp only [List.length_cons] at h1 h2
        rcases hm : matchPageLen p (c :: cs) with _ | k
        · exact congrArg _ (ih f2 (isWordChar c) cs (by omega) (by omega))
        · have hb := matchPageLen_bounds hm
          simp only [List.length_cons] at hb
          exact ih f2 _ _ (by simp [List.length_drop]; omega) (by simp [List.length_drop]; omega)

theorem pagenumSubF_eq (fuel : Nat) (p : Bool) (l : Text) (h : l.length ≤ fuel) :
    pagenumSubF fuel p l = pagenumSub p l :=
  pagenumSubF_irrel fuel l.length p l h (Nat.le_refl _)

theorem pagenumSub_nil (p : Bool) : pagenumSub p [] = [] := rfl

theorem pagenumSub_cons_none {p : Bool} {c : Char} {cs : Text}
    (h : matchPageLen p (c :: cs) = none) :
    pagenumSub p (c :: cs) = c :: pagenumSub (isWordChar c) cs := by
  simp only [pagenumSub, List.length_cons, pagenumSubF_succ, h]

theorem pagenumSub_cons_some {p : Bool} {l : Text} {k : Nat}
    (h : matchPageLen p l = some k) :
    pagenumSub p l = pagenumSub (isWordChar ((l.take k).getLastD ' ')) (List.drop k l) := by
  obtain ⟨c, cs, rfl⟩ : ∃ c cs, l = c :: cs := by
    cases l with
    | nil => rw [matchPageLen_nil] at h; exact absurd h (by simp)
    | cons c cs => exact ⟨_, _, rfl⟩
  have hb := matchPageLen_bounds h
  simp only [List.length_cons] at hb
  simp only [pagenumSub, List.length_cons, pagenumSubF_succ, h]
  apply pagenumSubF_irrel
  · simp [List.length_drop]; omega
  · exact Nat.le_refl _

/-! ### Characters of each pass's output -/

theorem mem_scrub {t : Text} {c : Char} (h : c ∈ scrub t) : isScrubbed c = false := by
  simp only [scrub, List.mem_map] at h
  obtain ⟨d, _, hd⟩ := h
  by_cases hs : isScrubbed d
  · rw [if_pos hs] at hd
    rw [← hd]
    decide
  · rw [if_neg hs] at hd
    rw [← hd]
    simpa using hs

theorem mem_bannerSubF : ∀ (fuel : Nat) (p : Bool) (l : Text) (c : Char),
    c ∈ bannerSubF fuel p l → c ∈ l := by
  intro fuel
  induction fuel with
  | zero => intro p l c h; exact h
  | succ fuel ih =>
    intro p l c h
    cases l with
    | nil => exact h
    | cons d cs =>
      rw [bannerSubF_succ] at h
      rcases hm : matchBannerLen p (d :: cs) with _ | k <;> rw [hm] at h
      · rcases List.mem_cons.mp h with h | h
        · simp [h]
        · exact List.mem_cons_of_mem d (ih _ _ _ h)
      · exact List.drop_subset _ _ (ih _ _ _ h)

theorem mem_bannerSub {p : Bool} {l : Text} {c : Char} (h : c ∈ bannerSub p l) : c ∈ l :=
  mem_bannerSubF _ _ _ _ h

theorem mem_pagenumSubF : ∀ (fuel : Nat) (p : Bool) (l : Text) (c : Char),
    c ∈ pagenumSubF fuel p l → c ∈ l := by
  intro fuel
  induction fuel with
  | zero => intro p l c h; exact h
  | succ fuel ih =>
    intro p l c h
    cases l with
    | nil => exact h
    | cons d cs =>
      rw [pagenumSubF_succ] at h
      rcases hm : matchPageLen p (d :: cs) with _ | k <;> rw [hm] at h
      · rcases List.mem_cons.mp h with h | h
        · simp [h]
        · exact List.mem_cons_of_mem d (ih _ _ _ h)
      · exact List.drop_subset _ _ (ih _ _ _ h)

theorem mem_pagenumSub {p : Bool} {l : Text} {c : Char} (h : c ∈ pagenumSub p l) : c ∈ l :=
  mem_pagenumSubF _ _ _ _ h

theorem mem_hyphenSub : ∀ (t : Text) (c : Char), c ∈ hyphenSub t → c ∈ t := by
  intro t
  induction t using hyphenSub.induct with
  | case1 => intro c h; exact h
  | case2 => intro c h; exact h
  | case3 => intro c h; exact h
  | case4 c d e rest hcond ih =>
    intro x h
    rw [hyphenSub, if_pos hcond] at h
    rcases List.mem_cons.mp h with h | h
    · simp [h, hcond.2.1, hcond.1]
    · simp [ih _ h]
  | case5 c d e rest hcond ih =>
    intro x h
    rw [hyphenSub, if_neg hcond] at h
    rcases List.mem_cons.mp h with h | h
    · simp [h]
    · exact List.mem_cons_of_mem c (ih _ h)

theorem mem_nlEmit {k : Nat} {c : Char} (h : c ∈ nlEmit k) : c = '\n' := by
  simp only [nlEmit] at h
  by_cases h3 : 3 ≤ k
  · rw [if_pos h3] at h; simpa using h
  · rw [if_neg h3] at h; exact List.eq_of_mem_replicate h

theorem mem_nlCollapseAux : ∀ (t : Text) (k : Nat) (c : Char),
    c ∈ nlCollapseAux k t → c ∈ t ∨ c = '\n' := by
  intro t
  induction t with
  | nil => intro k c h; exact Or.inr (mem_nlEmit h)
  | cons d cs ih =>
    intro k c h
    simp only [nlCollapseAux] at h
    by_cases hd : d = '\n'
    · rw [if_pos hd] at h
      rcases ih _ _ h with h | h
      · exact Or.inl (List.mem_cons_of_mem d h)
      · exact Or.inr h
    · rw [if_neg hd] at h
      rcases List.mem_append.mp h with h | h
      · exact Or.inr (mem_nlEmit h)
      · rcases List.mem_cons.mp h with h | h
        · exact Or.inl (by simp [h])
        · rcases ih _ _ h with h | h
          · exact Or.inl (List.mem_cons_of_mem d h)
          · exact Or.inr h

theorem mem_spCollapseAux : ∀ (t : Text) (b : Bool) (c : Char),
    c ∈ spCollapseAux b t → c ∈ t ∨ c = ' ' := by
  intro t
  induction t with
  | nil => intro b c h; simp [spCollapseAux] at h
  | cons d cs ih =>
    intro b c h
    simp only [spCollapseAux] at h
    by_cases hd : isHT d
    · rw [if_pos hd] at h
      cases b with
      | true =>
        simp only [if_pos rfl] at h
        rcases ih _ _ h with h | h
        · exact Or.inl (List.mem_cons_of_mem d h)
        · exact Or.inr h
      | false =>
        simp only [Bool.false_eq_true, if_neg] at h
        rcases List.mem_cons.mp h with h | h
        · exact Or.inr h
        · rcases ih _ _ h with h | h
          · exact Or.inl (List.mem_cons_of_mem d h)
          · exact Or.inr h
    · rw [if_neg hd] at h
      rcases List.mem_cons.mp h with h | h
      · exact Or.inl (by simp [h])
      · rcases ih _ _ h with h | h
        · exact Or.inl (List.mem_cons_of_mem d h)
        · exact Or.inr h

theorem splitNl_ne_nil : ∀ (t : Text), splitNl t ≠ [] := by
  intro t
  cases t with
  | nil => simp [splitNl]
  | cons c cs =>
    simp only [splitNl]
    by_cases hc : c = '\n'
    · simp [hc]
    · rw [if_neg hc]
      rcases h : splitNl cs with _ | ⟨L, Ls⟩ <;> simp

theorem mem_splitNl : ∀ (t : Text) (l : Text), l ∈ splitNl t → ∀ c ∈ l, c ∈ t := by
  intro t
  induction t with
  | nil =>
    intro l hl c hc
    simp [splitNl] at hl
    subst hl
    simp at hc
  | cons d cs ih =>
    intro l hl c hc
    simp only [splitNl] at hl
    by_cases hd : d = '\n'
    · rw [if_pos hd] at hl
      rcases List.mem_cons.mp hl with h | h
      · subst h; simp at hc
      · exact List.mem_cons_of_mem d (ih l h c hc)
    · rw [if_neg hd] at hl
      rcases hs : splitNl cs with _ | ⟨L, Ls⟩
      · exact absurd hs (splitNl_ne_nil cs)
      · rw [hs] at hl
        rcases List.mem_cons.mp hl with h | h
        · subst h
          rcases List.mem_cons.mp hc with h | h
          · simp [h]
          · refine List.mem_cons_of_mem d (ih L ?_ c h)
            rw [hs]; exact List.mem_cons_self _ _
        · refine List.mem_cons_of_mem d (ih l ?_ c hc)
          rw [hs]; exact List.mem_cons_of_mem L h

theorem mem_joinNl : ∀ (ls : List Text) (c : Char),
    c ∈ joinNl ls → c = '\n' ∨ ∃ l ∈ ls, c ∈ l := by
  intro ls
  induction ls with
  | nil => intro c h; simp [joinNl] at h
  | cons l ls ih =>
    intro c h
    cases ls with
    | nil =>
      simp only [joinNl] at h
      exact Or.inr ⟨l, List.mem_cons_self _ _, h⟩
    | cons m ls' =>
      simp only [joinNl] at h
      rcases List.mem_append.mp h with h | h
      · exact Or.inr ⟨l, List.mem_cons_self _ _, h⟩
      · rcases List.mem_cons.mp h with h | h
        · exact Or.inl h
        · rcases ih c h with h | ⟨l', hl', hc⟩
          · exact Or.inl h
          · exact Or.inr ⟨l', List.mem_cons_of_mem l hl', hc⟩

theorem mem_blankWs : ∀ (ls : List Text) (b : Text), b ∈ blankWs ls →
    ∀ c ∈ b, ∃ l ∈ ls, c ∈ l := by
  intro ls b hb c hc
  simp only [blankWs, List.mem_map] at hb
  obtain ⟨l, hl, hdef⟩ := hb
  by_cases hws : wsOnly l
  · rw [if_pos hws] at hdef; subst hdef; simp at hc
  · rw [if_neg hws] at hdef; subst hdef; exact ⟨l, hl, hc⟩

theorem mem_dropMargin {m l : Text} {c : Char} (h : c ∈ dropMargin m l) : c ∈ l := by
  simp only [dropMargin] at h
  by_cases hpre : m.isPrefixOf l
  · rw [if_pos hpre] at h; exact List.drop_subset _ _ h
  · rw [if_neg hpre] at h; exact h

theorem mem_dedentLines : ∀ (ls : List Text) (l' : Text), l' ∈ dedentLines ls →
    ∀ c ∈ l', ∃ l ∈ ls, c ∈ l := by
  intro ls l' hl' c hc
  simp only [dedentLines] at hl'
  by_cases hm : (marginOf (blankWs ls)).isEmpty
  · rw [if_pos hm] at hl'
    exact mem_blankWs ls l' hl' c hc
  · rw [if_neg hm] at hl'
    simp only [List.mem_map] at hl'
    obtain ⟨b, hb, hdef⟩ := hl'
    subst hdef
    exact mem_blankWs ls b hb c (mem_dropMargin hc)

theorem mem_dedent {t : Text} {c : Char} (h : c ∈ dedent t) : c ∈ t ∨ c = '\n' := by
  rcases mem_joinNl _ _ h with h | ⟨l', hl', hc⟩
  · exact Or.inr h
  · obtain ⟨l, hl, hcl⟩ := mem_dedentLines _ _ hl' c hc
    exact Or.inl (mem_splitNl t l hl c hcl)

theorem mem_pyStrip {t : Text} {c : Char} (h : c ∈ pyStrip t) : c ∈ t := by
  simp only [pyStrip, List.mem_reverse] at h
  have h1 := (List.dropWhile_sublist (l := (t.dropWhile pyIsSpace).reverse) pyIsSpace).subset h
  rw [List.mem_reverse] at h1
  exact (List.dropWhile_sublist pyIsSpace).subset h1

theorem mem_cleanL {t : Text} {c : Char} (h : c ∈ cleanL t) :
    c ∈ scrub t ∨ c = ' ' ∨ c = '\n' := by
  simp only [cleanL, normalizeNFKC] at h
  have h1 := mem_pyStrip h
  rcases mem_dedent h1 with h2 | h2
  · rcases mem_spCollapseAux _ _ _ h2 with h3 | h3
    · rcases mem_nlCollapseAux _ _ _ h3 with h4 | h4
      · have h5 := mem_hyphenSub _ _ h4
        have h6 := mem_pagenumSub h5
        exact Or.inl (mem_bannerSub h6)
      · exact Or.inr (Or.inr h4)
    · exact Or.inr (Or.inl h3)
  · exact Or.inr (Or.inr h2)

theorem cleanL_no_scrubbed (t : Text) : hasScrubbable (cleanL t) = false := by
  simp only [hasScrubbable, List.any_eq_false]
  intro c hc
  rcases mem_cleanL hc with h | h | h
  · simp [mem_scrub h]
  · subst h; decide
  · subst h; decide

/-- C2, counterexample: a carriage return (U+000D) is a non-printable C0
control character and is neither newline nor tab, yet the cleaning transform
does not replace it: `clean` maps `"a\rb"` to itself, so the output contains
a low control character other than newline and tab. -/
theorem clean_keeps_carriage_return :
    cleanL "a\rb".data = "a\rb".data ∧ '\r' ∈ cleanL "a\rb".data := by
  constructor
  · decide
  · decide

/-- C2, amended: the cleaning transform's output never contains a character of
the scrubbed class `[\x00-\x08\x0b\x0c\x0e-\x1f]` — the non-printable low
control characters excluding tab, newline, and also carriage return — and each
such character of the input is replaced by a single space. -/
theorem clean_no_scrubbed_controls :
    (∀ t : Text, hasScrubbable (cleanL t) = false) ∧
      cleanL "a\x01b".data = "a b".data := by
  constructor
  · exact cleanL_no_scrubbed
  · decide

/-! ### Newline runs -/

theorem hasTripleNl_tail : ∀ {c : Char} {cs : Text},
    hasTripleNl (c :: cs) = false → hasTripleNl cs = false := by
  intro c cs h
  match cs with
  | [] => rfl
  | [d] => rfl
  | d :: e :: r =>
    rw [hasTripleNl] at h
    simp only [Bool.or_eq_false_iff] at h
    exact h.2

theorem hasTripleNl_cons_ne {c : Char} (h : c ≠ '\n') (cs : Text) :
    hasTripleNl (c :: cs) = hasTripleNl cs := by
  match cs with
  | [] => rfl
  | [d] => rfl
  | d :: e :: r =>
    rw [hasTripleNl]
    simp [h]

theorem hasTripleNl_nl_cons_ne {d : Char} (h : d ≠ '\n') (X : Text) :
    hasTripleNl ('\n' :: d :: X) = hasTripleNl X := by
  match X with
  | [] => rfl
  | x :: xs =>
    rw [hasTripleNl]
    simp only [h, decide_eq_true_eq, Bool.and_eq_true, and_false, false_and, and_self,
      decide_eq_false_iff_not, not_false_eq_true, Bool.false_or]
    simp [hasTripleNl_cons_ne h]

theorem nlPre_ge_two_iff : ∀ (cs : Text), 2 ≤ nlPre cs ↔
    ∃ r, cs = '\n' :: '\n' :: r := by
  intro cs
  constructor
  · intro h
    match cs with
    | [] => simp [nlPre] at h
    | [c] =>
      simp only [nlPre] at h
      by_cases hc : c = '\n' <;> simp [hc] at h
    | c :: d :: r =>
      simp only [nlPre] at h
      by_cases hc : c = '\n'
      · by_cases hd : d = '\n'
        · exact ⟨r, by rw [hc, hd]⟩
        · simp [hc, hd] at h
      · simp [hc] at h
  · rintro ⟨r, rfl⟩
    simp [nlPre]

theorem hasTripleNl_cons_nl (cs : Text) :
    hasTripleNl ('\n' :: cs) = (decide (2 ≤ nlPre cs) || hasTripleNl cs) := by
  match cs with
  | [] => rfl
  | [d] =>
    by_cases hd : d = '\n' <;> simp [hasTripleNl, nlPre, hd]
  | d :: e :: r =>
    rw [hasTripleNl]
    by_cases hd : d = '\n'
    · by_cases he : e = '\n'
      · subst hd he
        have : (2 ≤ nlPre ('\n' :: '\n' :: r)) := by
          rw [nlPre_ge_two_iff]; exact ⟨r, rfl⟩
        simp [this]
      · subst hd
        have : ¬ (2 ≤ nlPre ('\n' :: e :: r)) := by
          rw [nlPre_ge_two_iff]
          rintro ⟨r', hr⟩
          simp at hr
          exact he hr.1
        simp [he, this]
    · have : ¬ (2 ≤ nlPre (d :: e :: r)) := by
        rw [nlPre_ge_two_iff]
        rintro ⟨r', hr⟩
        simp at hr
        exact hd hr.1
      simp [hd, this]

theorem hasTripleNl_nlEmit_append {k : Nat} {d : Char} {X : Text}
    (hd : d ≠ '\n') (hX : hasTripleNl X = false) :
    hasTripleNl (nlEmit k ++ d :: X) = false := by
  have hcons : hasTripleNl (d :: X) = false := by
    rw [hasTripleNl_cons_ne hd]; exact hX
  simp only [nlEmit]
  by_cases h3 : 3 ≤ k
  · rw [if_pos h3]
    show hasTripleNl ('\n' :: '\n' :: d :: X) = false
    rw [show ('\n' :: '\n' :: d :: X) = '\n' :: ('\n' :: d :: X) from rfl]
    rw [hasTripleNl_cons_nl, hasTripleNl_nl_cons_ne hd]
    have : ¬ (2 ≤ nlPre ('\n' :: d :: X)) := by
      rw [nlPre_ge_two_iff]
      rintro ⟨r', hr⟩
      simp at hr
      exact hd hr.1
    simp [this, hX]
  · rw [if_neg h3]
    match k, h3 with
    | n + 3, h3 => exact absurd (by omega) h3
    | 0, _ => simpa using hcons
    | 1, _ =>
      show hasTripleNl ('\n' :: d :: X) = false
      rw [hasTripleNl_nl_cons_ne hd]; exact hX
    | 2, _ =>
      show hasTripleNl ('\n' :: '\n' :: d :: X) = false
      rw [show ('\n' :: '\n' :: d :: X) = '\n' :: ('\n' :: d :: X) from rfl]
      rw [hasTripleNl_cons_nl, hasTripleNl_nl_cons_ne hd]
      have : ¬ (2 ≤ nlPre ('\n' :: d :: X)) := by
        rw [nlPre_ge_two_iff]
        rintro ⟨r', hr⟩
        simp at hr
        exact hd hr.1
      simp [this, hX]

theorem hasTripleNl_nlEmit (k : Nat) : hasTripleNl (nlEmit k) = false := by
  simp only [nlEmit]
  by_cases h3 : 3 ≤ k
  · rw [if_pos h3]; rfl
  · rw [if_neg h3]
    match k, h3 with
    | n + 3, h3 => exact absurd (by omega) h3
    | 0, _ => rfl
    | 1, _ => rfl
    | 2, _ => rfl

theorem nlCollapseAux_no_triple : ∀ (t : Text) (k : Nat),
    hasTripleNl (nlCollapseAux k t) = false := by
  intro t
  induction t with
  | nil => intro k; exact hasTripleNl_nlEmit k
  | cons d cs ih =>
    intro k
    simp only [nlCollapseAux]
    by_cases hd : d = '\n'
    · rw [if_pos hd]; exact ih (k + 1)
    · rw [if_neg hd]
      exact hasTripleNl_nlEmit_append hd (ih 0)

theorem nlCollapse_no_triple (t : Text) : hasTripleNl (nlCollapse t) = false :=
  nlCollapseAux_no_triple t 0

theorem nlPre_spCollapseAux_false : ∀ (t : Text), nlPre (spCollapseAux false t) = nlPre t := by
  intro t
  induction t with
  | nil => rfl
  | cons c cs ih =>
    simp only [spCollapseAux]
    by_cases hc : isHT c
    · rw [if_pos hc]
      simp only [Bool.false_eq_true, if_neg]
      have hcn : c ≠ '\n' := by
        intro h; rw [h] at hc; simp [isHT] at hc
      simp [nlPre, hcn]
    · rw [if_neg hc]
      by_cases hcn : c = '\n'
      · simp [nlPre, hcn, ih]
      · simp [nlPre, hcn]

theorem spCollapseAux_triple : ∀ (t : Text) (b : Bool),
    hasTripleNl (spCollapseAux b t) = hasTripleNl t := by
  intro t
  induction t with
  | nil => intro b; rfl
  | cons c cs ih =>
    intro b
    simp only [spCollapseAux]
    by_cases hc : isHT c
    · have hcn : c ≠ '\n' := by
        intro h; rw [h] at hc; simp [isHT] at hc
      rw [if_pos hc]
      cases b with
      | true =>
        rw [if_pos rfl, ih true, hasTripleNl_cons_ne hcn]
      | false =>
        rw [if_neg (by simp), hasTripleNl_cons_ne (by decide : (' ' : Char) ≠ '\n'), ih true,
          hasTripleNl_cons_ne hcn]
    · rw [if_neg hc]
      by_cases hcn : c = '\n'
      · subst hcn
        rw [hasTripleNl_cons_nl, hasTripleNl_cons_nl, ih false, nlPre_spCollapseAux_false]
      · rw [hasTripleNl_cons_ne hcn, hasTripleNl_cons_ne hcn, ih false]

/-- C6, counterexample: lines that contain only spaces defeat the claim — on
input `"a\n \n \nb"` the final dedent blanks the two space-only lines and the
output `"a\n\n\nb"` contains three consecutive newlines. -/
theorem clean_triple_newline_example :
    cleanL "a\n \n \nb".data = "a\n\n\nb".data ∧
      hasTripleNl (cleanL "a\n \n \nb".data) = true := by
  constructor
  · decide
  · decide

/-- C6, amended: after the newline-collapse pass and the horizontal-whitespace
collapse pass — that is, at every point of the pipeline up to the final
dedent-and-strip step — the text contains no three consecutive newlines; the
final dedent may reintroduce such a run by blanking whitespace-only lines. -/
theorem clean_no_triple_before_dedent (t : Text) :
    hasTripleNl (spCollapse (nlCollapse t)) = false := by
  rw [spCollapse, spCollapseAux_triple]
  exact nlCollapse_no_triple t

/-! ### Space runs -/

theorem hasDouble_cons₂ (c d : Char) (r : Text) :
    hasDoubleSpace (c :: d :: r) = ((c = ' ' && d = ' ') || hasDoubleSpace (d :: r)) := rfl

theorem hasDouble_tail : ∀ {c : Char} {cs : Text},
    hasDoubleSpace (c :: cs) = false → hasDoubleSpace cs = false := by
  intro c cs h
  match cs with
  | [] => rfl
  | d :: r =>
    rw [hasDouble_cons₂] at h
    simp only [Bool.or_eq_false_iff] at h
    exact h.2

theorem hasDouble_cons_ne {c : Char} (h : c ≠ ' ') (cs : Text) :
    hasDoubleSpace (c :: cs) = hasDoubleSpace cs := by
  match cs with
  | [] => rfl
  | d :: r =>
    rw [hasDouble_cons₂]
    simp [h]

theorem hasDouble_cons_of_head {c : Char} {cs : Text}
    (h1 : cs.head? ≠ some ' ') (h2 : hasDoubleSpace cs = false) :
    hasDoubleSpace (c :: cs) = false := by
  match cs with
  | [] => rfl
  | d :: r =>
    rw [hasDouble_cons₂]
    simp only [List.head?_cons, ne_eq, Option.some.injEq] at h1
    simp [h1, h2]

theorem hasDouble_append_left : ∀ {a b : Text},
    hasDoubleSpace (a ++ b) = false → hasDoubleSpace b = false := by
  intro a
  induction a with
  | nil => intro b h; exact h
  | cons c a' ih =>
    intro b h
    exact ih (hasDouble_tail h)

theorem hasDouble_append_right : ∀ {b w : Text},
    hasDoubleSpace (b ++ w) = false → hasDoubleSpace b = false := by
  intro b
  induction b with
  | nil => intro w h; rfl
  | cons c b' ih =>
    intro w h
    match b' with
    | [] => rfl
    | d :: b'' =>
      rw [hasDouble_cons₂]
      rw [List.cons_append, List.cons_append, hasDouble_cons₂] at h
      simp only [Bool.or_eq_false_iff] at h
      rw [← List.cons_append] at h
      simp [h.1, ih h.2]

theorem hasDouble_drop {t : Text} (k : Nat) (h : hasDoubleSpace t = false) :
    hasDoubleSpace (t.drop k) = false := by
  have := List.take_append_drop k t
  rw [← this] at h
  exact hasDouble_append_left h

theorem spCollapseAux_head_true : ∀ (t : Text), (spCollapseAux true t).head? ≠ some ' ' := by
  intro t
  induction t with
  | nil => simp [spCollapseAux]
  | cons c cs ih =>
    simp only [spCollapseAux]
    by_cases hc : isHT c
    · rw [if_pos hc]
      simp only [if_true]
      exact ih
    · rw [if_neg hc]
      simp only [List.head?_cons, ne_eq, Option.some.injEq]
      intro h
      rw [h] at hc
      simp [isHT] at hc

theorem spCollapseAux_no_double : ∀ (t : Text) (b : Bool),
    hasDoubleSpace (spCollapseAux b t) = false := by
  intro t
  induction t with
  | nil => intro b; rfl
  | cons c cs ih =>
    intro b
    simp only [spCollapseAux]
    by_cases hc : isHT c
    · rw [if_pos hc]
      cases b with
      | true => rw [if_pos rfl]; exact ih true
      | false =>
        rw [if_neg (by simp)]
        exact hasDouble_cons_of_head (spCollapseAux_head_true cs) (ih true)
    · rw [if_neg hc]
      have hcs : c ≠ ' ' := by
        intro h; rw [h] at hc; simp [isHT] at hc
      rw [hasDouble_cons_ne hcs]
      exact ih false

theorem spCollapseAux_no_tab : ∀ (t : Text) (b : Bool), '\t' ∉ spCollapseAux b t := by
  intro t
  induction t with
  | nil => intro b; simp [spCollapseAux]
  | cons c cs ih =>
    intro b
    simp only [spCollapseAux]
    by_cases hc : isHT c
    · rw [if_pos hc]
      cases b with
      | true => rw [if_pos rfl]; exact ih true
      | false =>
        rw [if_neg (by simp)]
        intro h
        rcases List.mem_cons.mp h with h | h
        · simp at h
        · exact ih true h
    · rw [if_neg hc]
      intro h
      rcases List.mem_cons.mp h with h | h
      · rw [← h] at hc; simp [isHT] at hc
      · exact ih false h

theorem splitNl_head_shape : ∀ (cs L : Text) (Ls : List Text), splitNl cs = L :: Ls →
    L = [] ∨ ∃ x L' cs', L = x :: L' ∧ cs = x :: cs' := by
  intro cs L Ls h
  cases cs with
  | nil => simp [splitNl] at h; exact Or.inl h.1
  | cons x cs' =>
    simp only [splitNl] at h
    by_cases hx : x = '\n'
    · rw [if_pos hx] at h
      simp at h
      exact Or.inl h.1
    · rw [if_neg hx] at h
      rcases hs : splitNl cs' with _ | ⟨M, Ms⟩
      · exact absurd hs (splitNl_ne_nil cs')
      · rw [hs] at h
        simp at h
        exact Or.inr ⟨x, M, cs', h.1.symm, rfl⟩

theorem splitNl_no_double : ∀ (y : Text), hasDoubleSpace y = false →
    ∀ l ∈ splitNl y, hasDoubleSpace l = false := by
  intro y
  induction y with
  | nil =>
    intro h l hl
    simp [splitNl] at hl
    subst hl; rfl
  | cons c cs ih =>
    intro h l hl
    simp only [splitNl] at hl
    by_cases hc : c = '\n'
    · rw [if_pos hc] at hl
      rcases List.mem_cons.mp hl with h' | h'
      · subst h'; rfl
      · exact ih (hasDouble_tail h) l h'
    · rw [if_neg hc] at hl
      rcases hs : splitNl cs with _ | ⟨L, Ls⟩
      · exact absurd hs (splitNl_ne_nil cs)
      · rw [hs] at hl
        rcases List.mem_cons.mp hl with h' | h'
        · subst h'
          have hL : hasDoubleSpace L = false := by
            refine ih (hasDouble_tail h) L ?_
            rw [hs]; exact List.mem_cons_self _ _
          rcases splitNl_head_shape cs L Ls hs with hL0 | ⟨x, L', cs', hLx, hcs⟩
          · subst hL0; rfl
          · subst hLx
            rw [hasDouble_cons₂]
            rw [hcs, hasDouble_cons₂] at h
            simp only [Bool.or_eq_false_iff] at h
            simp [h.1, hL]
        · refine ih (hasDouble_tail h) l ?_
          rw [hs]; exact List.mem_cons_of_mem L h'

theorem hasDouble_append_nl {l X : Text}
    (hl : hasDoubleSpace l = false) (hX : hasDoubleSpace X = false) :
    hasDoubleSpace (l ++ '\n' :: X) = false := by
  induction l with
  | nil =>
    simpa [hasDouble_cons_ne (by decide : ('\n' : Char) ≠ ' ')] using hX
  | cons c l' ih =>
    match l' with
    | [] =>
      simp only [List.cons_append, List.nil_append, hasDouble_cons₂]
      simp only [hasDouble_cons_ne (by decide : ('\n' : Char) ≠ ' ')]
      simp [hX]
    | d :: l'' =>
      rw [List.cons_append, List.cons_append, hasDouble_cons₂]
      rw [hasDouble_cons₂] at hl
      simp only [Bool.or_eq_false_iff] at hl
      simp only [hl.1, Bool.false_or]
      exact ih hl.2

theorem joinNl_no_double : ∀ (ls : List Text),
    (∀ l ∈ ls, hasDoubleSpace l = false) → hasDoubleSpace (joinNl ls) = false := by
  intro ls
  induction ls with
  | nil => intro h; rfl
  | cons l ls ih =>
    intro h
    cases ls with
    | nil => exact h l (List.mem_cons_self _ _)
    | cons m ls' =>
      show hasDoubleSpace (l ++ '\n' :: joinNl (m :: ls')) = false
      refine hasDouble_append_nl (h l (List.mem_cons_self _ _)) ?_
      exact ih (fun l' hl' => h l' (List.mem_cons_of_mem l hl'))

theorem dedentLines_no_double : ∀ (ls : List Text),
    (∀ l ∈ ls, hasDoubleSpace l = false) →
    ∀ l' ∈ dedentLines ls, hasDoubleSpace l' = false := by
  intro ls h l' hl'
  have blank : ∀ b ∈ blankWs ls, hasDoubleSpace b = false := by
    intro b hb
    simp only [blankWs, List.mem_map] at hb
    obtain ⟨l, hl, hdef⟩ := hb
    by_cases hws : wsOnly l
    · rw [if_pos hws] at hdef; subst hdef; rfl
    · rw [if_neg hws] at hdef; subst hdef; exact h l hl
  simp only [dedentLines] at hl'
  by_cases hm : (marginOf (blankWs ls)).isEmpty
  · rw [if_pos hm] at hl'
    exact blank l' hl'
  · rw [if_neg hm] at hl'
    simp only [List.mem_map] at hl'
    obtain ⟨b, hb, hdef⟩ := hl'
    subst hdef
    simp only [dropMargin]
    by_cases hpre : (marginOf (blankWs ls)).isPrefixOf b
    · rw [if_pos hpre]
      exact hasDouble_drop _ (blank b hb)
    · rw [if_neg hpre]
      exact blank b hb

theorem dedent_no_double {t : Text} (h : hasDoubleSpace t = false) :
    hasDoubleSpace (dedent t) = false :=
  joinNl_no_double _ (dedentLines_no_double _ (splitNl_no_double t h))

theorem dropWhile_eq_pyStrip_append (t : Text) :
    t.dropWhile pyIsSpace =
      pyStrip t ++ ((t.dropWhile pyIsSpace).reverse.takeWhile pyIsSpace).reverse := by
  conv_lhs => rw [← List.reverse_reverse (t.dropWhile pyIsSpace),
    ← List.takeWhile_append_dropWhile (p := pyIsSpace) (l := (t.dropWhile pyIsSpace).reverse)]
  rw [List.reverse_append]
  rfl

theorem pyStrip_eq_append (t : Text) :
    ∃ pre w, t = pre ++ (pyStrip t ++ w) := by
  refine ⟨t.takeWhile pyIsSpace,
    ((t.dropWhile pyIsSpace).reverse.takeWhile pyIsSpace).reverse, ?_⟩
  conv_lhs => rw [← List.takeWhile_append_dropWhile (p := pyIsSpace) (l := t)]
  congr 1
  exact dropWhile_eq_pyStrip_append t

theorem pyStrip_no_double {t : Text} (h : hasDoubleSpace t = false) :
    hasDoubleSpace (pyStrip t) = false := by
  obtain ⟨pre, w, hw⟩ := pyStrip_eq_append t
  rw [hw] at h
  exact hasDouble_append_right (hasDouble_append_left h)

theorem head_dropWhile_not {p : Char → Bool} : ∀ {l : Text} {c : Char},
    (l.dropWhile p).head? = some c → p c = false := by
  intro l
  induction l with
  | nil => intro c h; simp [List.dropWhile] at h
  | cons d cs ih =>
    intro c h
    rw [List.dropWhile_cons] at h
    by_cases hd : p d
    · rw [if_pos hd] at h; exact ih h
    · rw [if_neg hd] at h
      simp at h
      rw [← h]
      simpa using hd

theorem pyStrip_head {t : Text} {c : Char} (h : (pyStrip t).head? = some c) :
    pyIsSpace c = false := by
  have hu : (t.dropWhile pyIsSpace).head? = some c := by
    rw [dropWhile_eq_pyStrip_append t]
    rcases hps : pyStrip t with _ | ⟨x, xs⟩
    · rw [hps] at h; simp at h
    · rw [hps] at h
      simp at h
      simp [h]
  exact head_dropWhile_not hu

theorem pyStrip_last {t : Text} {c : Char} (h : (pyStrip t).getLast? = some c) :
    pyIsSpace c = false := by
  simp only [pyStrip] at h
  rw [List.getLast?_reverse] at h
  exact head_dropWhile_not h

theorem cleanL_no_tab (t : Text) : '\t' ∉ cleanL t := by
  intro h
  simp only [cleanL, normalizeNFKC] at h
  have h1 := mem_pyStrip h
  rcases mem_dedent h1 with h2 | h2
  · exact spCollapseAux_no_tab _ false h2
  · simp at h2

theorem cleanL_no_double (t : Text) : hasDoubleSpace (cleanL t) = false := by
  simp only [cleanL, normalizeNFKC]
  exact pyStrip_no_double (dedent_no_double (spCollapseAux_no_double _ false))

theorem cleanL_trimmed (t : Text) : trimmedB (cleanL t) = true := by
  have hh : ∀ c, (cleanL t).head? = some c → pyIsSpace c = false := by
    intro c h
    simp only [cleanL, normalizeNFKC] at h
    exact pyStrip_head h
  have hl : ∀ c, (cleanL t).getLast? = some c → pyIsSpace c = false := by
    intro c h
    simp only [cleanL, normalizeNFKC] at h
    exact pyStrip_last h
  simp only [trimmedB]
  rcases h1 : (cleanL t).head? with _ | c <;> rcases h2 : (cleanL t).getLast? with _ | d
  · simp
  · simp [hl d h2]
  · simp [hh c h1]
  · simp [hh c h1, hl d h2]

/-- C7, confirmed: the output of the cleaning transform contains no tab, never
contains two adjacent spaces (every horizontal-whitespace run has been
collapsed to a single space), and neither starts nor ends with whitespace;
and on the stated example, `clean "a   b" = "a b"`.  (Beyond the whole-document
trim, the final dedent may additionally remove a whitespace margin common to
all lines.) -/
theorem clean_whitespace_collapse :
    (∀ t : Text, '\t' ∉ cleanL t ∧ hasDoubleSpace (cleanL t) = false ∧
      trimmedB (cleanL t) = true) ∧
    cleanL "a   b".data = "a b".data := by
  constructor
  · exact fun t => ⟨cleanL_no_tab t, cleanL_no_double t, cleanL_trimmed t⟩
  · decide

/-! ### Identity of each pass on texts free of its pattern -/

theorem scrub_id {t : Text} (h : ∀ c ∈ t, isScrubbed c = false) : scrub t = t := by
  induction t with
  | nil => rfl
  | cons c cs ih =>
    simp only [scrub, List.map_cons]
    rw [if_neg (by simp [h c (List.mem_cons_self _ _)])]
    exact congrArg _ (ih (fun d hd => h d (List.mem_cons_of_mem c hd)))

theorem consumeCI_rest_subset : ∀ {ps l : Text} {n : Nat} {r : Text},
    consumeCI ps l = some (n, r) → ∀ c ∈ r, c ∈ l := by
  intro ps
  induction ps with
  | nil =>
    intro l n r h c hc
    simp [consumeCI] at h
    rw [h.2]
    exact hc
  | cons p ps ih =>
    intro l n r h c hc
    cases l with
    | nil => simp [consumeCI] at h
    | cons d cs =>
      simp only [consumeCI] at h
      by_cases hd : d.toLower = p.toLower
      · simp only [hd, if_pos rfl] at h
        rcases hm : consumeCI ps cs with _ | ⟨m, r'⟩ <;> rw [hm] at h
        · simp at h
        · simp at h
          rw [← h.2] at hc
          exact List.mem_cons_of_mem d (ih hm c hc)
      · simp [hd] at h

theorem consumeSpacesN_rest_subset : ∀ (l : Text), ∀ c ∈ (consumeSpacesN l).2, c ∈ l := by
  intro l
  induction l with
  | nil => simp [consumeSpacesN]
  | cons d cs ih =>
    simp only [consumeSpacesN]
    by_cases hd : pyIsSpace d
    · rw [if_pos hd]
      intro c hc
      exact List.mem_cons_of_mem d (ih c hc)
    · rw [if_neg hd]
      intro c hc
      exact hc

theorem matchBannerLen_none_noPipe {p : Bool} {l : Text} (h : '|' ∉ l) :
    matchBannerLen p l = none := by
  by_cases hp : p
  · simp [matchBannerLen, hp]
  · rcases h1 : consumeCI bannerHead l with _ | ⟨n1, r1⟩
    · simp [matchBannerLen, hp, h1]
    · rcases h2 : consumeSpacesN r1 with ⟨s1, r2⟩
      rcases r2 with _ | ⟨c2, r3⟩
      · simp [matchBannerLen, hp, h1, h2]
      · have hc2 : c2 ≠ '|' := by
          intro hceq
          subst hceq
          apply h
          apply consumeCI_rest_subset h1
          have hmem := consumeSpacesN_rest_subset r1 '|'
          rw [h2] at hmem
          exact hmem (by simp)
        simp [matchBannerLen, hp, h1, h2, hc2]

theorem bannerSubF_id : ∀ (fuel : Nat) (p : Bool) (l : Text), '|' ∉ l →
    bannerSubF fuel p l = l := by
  intro fuel
  induction fuel with
  | zero => intro p l h; rfl
  | succ fuel ih =>
    intro p l h
    cases l with
    | nil => rfl
    | cons c cs =>
      rw [bannerSubF_succ, matchBannerLen_none_noPipe h]
      exact congrArg _ (ih (isWordChar c) cs (fun hc => h (List.mem_cons_of_mem c hc)))

theorem bannerSub_id {p : Bool} {l : Text} (h : '|' ∉ l) : bannerSub p l = l :=
  bannerSubF_id _ _ _ h

theorem matchPageLen_none_head {p : Bool} {c : Char} {cs : Text}
    (h : isAsciiDigit c = false) : matchPageLen p (c :: cs) = none := by
  by_cases hp : p
  · simp [matchPageLen, hp]
  · have : takeDigits (c :: cs) = (0, c :: cs) := by
      simp [takeDigits, h]
    simp [matchPageLen, hp, this]

theorem pagenumSubF_id : ∀ (fuel : Nat) (p : Bool) (l : Text),
    (∀ c ∈ l, isAsciiDigit c = false) → pagenumSubF fuel p l = l := by
  intro fuel
  induction fuel with
  | zero => intro p l h; rfl
  | succ fuel ih =>
    intro p l h
    cases l with
    | nil => rfl
    | cons c cs =>
      rw [pagenumSubF_succ, matchPageLen_none_head (h c (List.mem_cons_self _ _))]
      exact congrArg _ (ih (isWordChar c) cs (fun d hd => h d (List.mem_cons_of_mem c hd)))

theorem pagenumSub_id {p : Bool} {l : Text} (h : ∀ c ∈ l, isAsciiDigit c = false) :
    pagenumSub p l = l :=
  pagenumSubF_id _ _ _ h

theorem hyphenSub_id : ∀ (t : Text), '-' ∉ t → hyphenSub t = t := by
  intro t
  induction t using hyphenSub.induct with
  | case1 => intro h; rfl
  | case2 => intro h; rfl
  | case3 => intro h; rfl
  | case4 c d e rest hcond ih =>
    intro h
    exact absurd (hcond.1 ▸ List.mem_cons_self c _) h
  | case5 c d e rest hcond ih =>
    intro h
    rw [hyphenSub, if_neg hcond]
    exact congrArg _ (ih (fun hc => h (List.mem_cons_of_mem c hc)))

theorem hasTripleNl_of_nlPre {t : Text} (h : 3 ≤ nlPre t) : hasTripleNl t = true := by
  cases t with
  | nil => simp [nlPre] at h
  | cons c cs =>
    simp only [nlPre] at h
    by_cases hc : c = '\n'
    · rw [if_pos hc] at h
      have h2 : 2 ≤ nlPre cs := by omega
      obtain ⟨r, hr⟩ := (nlPre_ge_two_iff cs).mp h2
      subst hr hc
      rw [hasTripleNl]
      simp
    · simp [hc] at h

theorem nlPre_le_two {t : Text} (h : hasTripleNl t = false) : nlPre t ≤ 2 := by
  by_contra hc
  rw [hasTripleNl_of_nlPre (by omega)] at h
  simp at h

theorem nlCollapseAux_fix : ∀ (t : Text) (k : Nat), k + nlPre t ≤ 2 →
    hasTripleNl t = false → nlCollapseAux k t = List.replicate k '\n' ++ t := by
  intro t
  induction t with
  | nil =>
    intro k hk ht
    simp only [nlPre] at hk
    simp only [nlCollapseAux, nlEmit]
    rw [if_neg (by omega)]
    simp
  | cons c cs ih =>
    intro k hk ht
    simp only [nlCollapseAux]
    by_cases hc : c = '\n'
    · subst hc
      rw [if_pos rfl]
      have hk' : k + 1 + nlPre cs ≤ 2 := by
        simp [nlPre] at hk
        omega
      rw [ih (k + 1) hk' (hasTripleNl_tail ht)]
      rw [List.replicate_succ' k '\n', List.append_assoc]
      rfl
    · rw [if_neg hc]
      simp only [nlPre, if_neg hc] at hk
      have hcs : nlPre cs ≤ 2 := nlPre_le_two (hasTripleNl_tail ht)
      rw [ih 0 (by omega) (hasTripleNl_tail ht)]
      simp only [nlEmit]
      rw [if_neg (by omega)]
      simp

theorem nlCollapse_fix {t : Text} (h : hasTripleNl t = false) : nlCollapse t = t := by
  have := nlCollapseAux_fix t 0 (by have := nlPre_le_two h; omega) h
  simpa using this

theorem hasDouble_head_ne {cs : Text} (h : hasDoubleSpace (' ' :: cs) = false) :
    cs.head? ≠ some ' ' := by
  cases cs with
  | nil => simp
  | cons d r =>
    rw [hasDouble_cons₂] at h
    simp only [Bool.or_eq_false_iff] at h
    simp only [List.head?_cons, ne_eq, Option.some.injEq]
    intro hd
    rw [hd] at h
    simp at h

theorem spCollapseAux_fix : ∀ (t : Text), '\t' ∉ t → hasDoubleSpace t = false →
    spCollapseAux false t = t ∧ (t.head? ≠ some ' ' → spCollapseAux true t = t) := by
  intro t
  induction t with
  | nil => intro h1 h2; exact ⟨rfl, fun _ => rfl⟩
  | cons c cs ih =>
    intro h1 h2
    have hcs1 : '\t' ∉ cs := fun hc => h1 (List.mem_cons_of_mem c hc)
    have hcs2 : hasDoubleSpace cs = false := hasDouble_tail h2
    by_cases hc : isHT c
    · have hsp : c = ' ' := by
        rcases (by simpa [isHT] using hc : c = ' ' ∨ c = '\t') with h | h
        · exact h
        · exact absurd (h ▸ List.mem_cons_self c cs) h1
      subst hsp
      constructor
      · simp only [spCollapseAux, if_pos hc]
        rw [if_neg (by simp)]
        exact congrArg _ ((ih hcs1 hcs2).2 (hasDouble_head_ne h2))
      · intro hhd
        simp at hhd
    · constructor
      · simp only [spCollapseAux, if_neg hc]
        exact congrArg _ (ih hcs1 hcs2).1
      · intro _
        simp only [spCollapseAux, if_neg hc]
        exact congrArg _ (ih hcs1 hcs2).1

theorem dropWhile_id_of_head {p : Char → Bool} {t : Text}
    (h : ∀ c, t.head? = some c → p c = false) : t.dropWhile p = t := by
  cases t with
  | nil => rfl
  | cons c cs =>
    rw [List.dropWhile_cons, if_neg (by simp [h c rfl])]

theorem pyStrip_fix {t : Text}
    (h1 : ∀ c, t.head? = some c → pyIsSpace c = false)
    (h2 : ∀ c, t.getLast? = some c → pyIsSpace c = false) : pyStrip t = t := by
  simp only [pyStrip]
  rw [dropWhile_id_of_head h1]
  rw [dropWhile_id_of_head (p := pyIsSpace) (t := t.reverse) ?_]
  · exact List.reverse_reverse t
  · intro c hc
    rw [List.head?_reverse] at hc
    exact h2 c hc

theorem joinNl_splitNl : ∀ (t : Text), joinNl (splitNl t) = t := by
  intro t
  induction t with
  | nil => rfl
  | cons c cs ih =>
    simp only [splitNl]
    by_cases hc : c = '\n'
    · rw [if_pos hc]
      rcases hs : splitNl cs with _ | ⟨L, Ls⟩
      · exact absurd hs (splitNl_ne_nil cs)
      · rw [hs] at ih
        show [] ++ '\n' :: joinNl (L :: Ls) = c :: cs
        rw [ih, hc]
        rfl
    · rw [if_neg hc]
      rcases hs : splitNl cs with _ | ⟨L, Ls⟩
      · exact absurd hs (splitNl_ne_nil cs)
      · rw [hs] at ih
        show joinNl ((c :: L) :: Ls) = c :: cs
        cases Ls with
        | nil =>
          show (c :: L : Text) = c :: cs
          simp only [joinNl] at ih
          rw [ih]
        | cons M Ms =>
          show (c :: L) ++ '\n' :: joinNl (M :: Ms) = c :: cs
          rw [show joinNl (L :: M :: Ms) = L ++ '\n' :: joinNl (M :: Ms) from rfl] at ih
          rw [List.cons_append, ih]

theorem blankWs_id {ls : List Text} (h : ∀ l ∈ ls, wsOnly l = false) : blankWs ls = ls := by
  induction ls with
  | nil => rfl
  | cons l ls ih =>
    simp only [blankWs, List.map_cons]
    rw [if_neg (by simp [h l (List.mem_cons_self _ _)])]
    have h2 := ih (fun l' hl' => h l' (List.mem_cons_of_mem l hl'))
    simp only [blankWs] at h2
    rw [h2]

theorem lcp_nil_left (x : Text) : lcp [] x = [] := by cases x <;> rfl

theorem foldl_lcp_nil : ∀ (is : List Text), List.foldl lcp [] is = [] := by
  intro is
  induction is with
  | nil => rfl
  | cons j js ih =>
    simp only [List.foldl_cons, lcp_nil_left]
    exact ih

theorem marginOf_cons_head {x : Char} {L : Text} {Ls : List Text}
    (hx : isHT x = false) : marginOf ((x :: L) :: Ls) = [] := by
  have h1 : ((x :: L) :: Ls).filter (fun l => !l.isEmpty) =
      (x :: L) :: Ls.filter (fun l => !l.isEmpty) := by
    simp [List.filter_cons]
  have h2 : (x :: L).takeWhile isHT = [] := by
    simp [List.takeWhile_cons, hx]
  simp only [marginOf, h1, List.map_cons, h2]
  exact foldl_lcp_nil _

theorem dedentLines_id {ls : List Text} (hws : ∀ l ∈ ls, wsOnly l = false)
    (hm : (marginOf ls).isEmpty) : dedentLines ls = ls := by
  simp only [dedentLines, blankWs_id hws]
  rw [if_pos hm]

theorem isHT_py {c : Char} (h : isHT c = true) : pyIsSpace c = true := by
  rcases (by simpa [isHT] using h : c = ' ' ∨ c = '\t') with h | h <;> subst h <;> decide

theorem dedent_fix {t : Text}
    (hws : ∀ l ∈ splitNl t, wsOnly l = false)
    (hhd : ∀ c, t.head? = some c → pyIsSpace c = false) : dedent t = t := by
  cases t with
  | nil => rfl
  | cons x ts =>
    have hx : pyIsSpace x = false := hhd x rfl
    have hxn : x ≠ '\n' := by
      intro h
      rw [h] at hx
      exact absurd hx (by decide)
    have hxh : isHT x = false := by
      by_cases h : isHT x
      · rw [isHT_py h] at hx; simp at hx
      · simpa using h
    rcases hs : splitNl ts with _ | ⟨L, Ls⟩
    · exact absurd hs (splitNl_ne_nil ts)
    · have hsp : splitNl (x :: ts) = (x :: L) :: Ls := by
        simp only [splitNl, if_neg hxn, hs]
      have hm : (marginOf ((x :: L) :: Ls)).isEmpty := by
        rw [marginOf_cons_head hxh]
        rfl
      have hws' : ∀ l ∈ (x :: L) :: Ls, wsOnly l = false := by
        rw [← hsp]
        exact hws
      rw [dedent, hsp, dedentLines_id hws' hm, ← hsp, joinNl_splitNl]

/-! ### Lines of stripped and dedented text -/

theorem splitNl_lines_nl_free : ∀ (t : Text), ∀ l ∈ splitNl t, '\n' ∉ l := by
  intro t
  induction t with
  | nil =>
    intro l hl
    simp [splitNl] at hl
    subst hl
    simp
  | cons c cs ih =>
    intro l hl
    simp only [splitNl] at hl
    by_cases hc : c = '\n'
    · rw [if_pos hc] at hl
      rcases List.mem_cons.mp hl with h | h
      · subst h; simp
      · exact ih l h
    · rw [if_neg hc] at hl
      rcases hs : splitNl cs with _ | ⟨L, Ls⟩
      · exact absurd hs (splitNl_ne_nil cs)
      · rw [hs] at hl
        rcases List.mem_cons.mp hl with h | h
        · subst h
          intro hmem
          rcases List.mem_cons.mp hmem with h | h
          · exact hc h.symm
          · refine ih L ?_ h
            rw [hs]; exact List.mem_cons_self _ _
        · refine ih l ?_
          rw [hs]; exact List.mem_cons_of_mem L h

theorem splitNl_append_nl : ∀ (u : Text), splitNl (u ++ ['\n']) = splitNl u ++ [[]] := by
  intro u
  induction u with
  | nil => rfl
  | cons c u' ih =>
    by_cases hc : c = '\n'
    · show splitNl (c :: (u' ++ ['\n'])) = splitNl (c :: u') ++ [[]]
      simp only [splitNl, if_pos hc, ih]
      rfl
    · show splitNl (c :: (u' ++ ['\n'])) = splitNl (c :: u') ++ [[]]
      simp only [splitNl, if_neg hc, ih]
      rcases hs : splitNl u' with _ | ⟨L, Ls⟩
      · exact absurd hs (splitNl_ne_nil u')
      · rfl

theorem splitNl_append_ne : ∀ (u : Text) {c : Char}, c ≠ '\n' →
    splitNl (u ++ [c]) = endCons (splitNl u) c := by
  intro u
  induction u with
  | nil =>
    intro c hc
    show splitNl [c] = endCons [[]] c
    simp only [splitNl, if_neg hc]
    rfl
  | cons d u' ih =>
    intro c hc
    by_cases hd : d = '\n'
    · show splitNl (d :: (u' ++ [c])) = endCons (splitNl (d :: u')) c
      simp only [splitNl, if_pos hd, ih hc]
      rcases hs : splitNl u' with _ | ⟨L, Ls⟩
      · exact absurd hs (splitNl_ne_nil u')
      · rfl
    · show splitNl (d :: (u' ++ [c])) = endCons (splitNl (d :: u')) c
      simp only [splitNl, if_neg hd, ih hc]
      rcases hs : splitNl u' with _ | ⟨L, Ls⟩
      · exact absurd hs (splitNl_ne_nil u')
      · cases Ls with
        | nil => rfl
        | cons M Ms => rfl

theorem endCons_append : ∀ (X : List Text) (y : Text) (c : Char),
    endCons (X ++ [y]) c = X ++ [y ++ [c]] := by
  intro X
  induction X with
  | nil => intro y c; rfl
  | cons x X' ih =>
    intro y c
    cases X' with
    | nil => rfl
    | cons x2 X'' =>
      show x :: endCons ((x2 :: X'') ++ [y]) c = x :: ((x2 :: X'') ++ [y ++ [c]])
      rw [ih y c]

theorem splitNl_reverse : ∀ (t : Text),
    splitNl t.reverse = ((splitNl t).map List.reverse).reverse := by
  intro t
  induction t with
  | nil => rfl
  | cons c cs ih =>
    by_cases hc : c = '\n'
    · subst hc
      rw [List.reverse_cons, splitNl_append_nl, ih]
      rw [show splitNl ('\n' :: cs) = [] :: splitNl cs from by simp [splitNl]]
      rw [List.map_cons, List.reverse_cons]
      simp
    · rw [List.reverse_cons, splitNl_append_ne cs.reverse hc, ih]
      rcases hs : splitNl cs with _ | ⟨L, Ls⟩
      · exact absurd hs (splitNl_ne_nil cs)
      · rw [show splitNl (c :: cs) = (c :: L) :: Ls from by simp [splitNl, hc, hs]]
        rw [List.map_cons, List.map_cons, List.reverse_cons, List.reverse_cons,
          endCons_append, List.reverse_cons]

theorem lineNonWs_of_head {c : Char} {l : Text} (h : isHT c = false) : lineNonWs (c :: l) :=
  Or.inr ⟨c, List.mem_cons_self _ _, h⟩

theorem lineNonWs_reverse {l : Text} (h : lineNonWs l) : lineNonWs l.reverse := by
  rcases h with h | ⟨c, hc, hHT⟩
  · subst h; exact Or.inl rfl
  · exact Or.inr ⟨c, by simpa using hc, hHT⟩

theorem linesNonWs_dropWhile : ∀ (t : Text),
    (∀ l ∈ (splitNl t).tail, lineNonWs l) →
    ∀ l ∈ splitNl (t.dropWhile pyIsSpace), lineNonWs l := by
  intro t
  induction t with
  | nil =>
    intro h l hl
    simp [List.dropWhile, splitNl] at hl
    subst hl
    exact Or.inl rfl
  | cons c cs ih =>
    intro h l hl
    rw [List.dropWhile_cons] at hl
    by_cases hpc : pyIsSpace c
    · rw [if_pos (by simp [hpc])] at hl
      refine ih ?_ l hl
      by_cases hc : c = '\n'
      · intro l' hl'
        apply h
        rw [show splitNl (c :: cs) = [] :: splitNl cs from by simp [splitNl, hc]]
        simp only [List.tail_cons]
        exact List.mem_of_mem_tail hl'
      · rcases hs : splitNl cs with _ | ⟨L, Ls⟩
        · exact absurd hs (splitNl_ne_nil cs)
        · intro l' hl'
          apply h
          rw [show splitNl (c :: cs) = (c :: L) :: Ls from by simp [splitNl, hc, hs]]
          simp only [List.tail_cons]
          simpa using hl'
    · rw [if_neg (by simp [hpc])] at hl
      have hcn : c ≠ '\n' := by
        intro h'
        rw [h'] at hpc
        exact hpc (by decide)
      have hcht : isHT c = false := by
        by_cases h' : isHT c
        · exact absurd (isHT_py h') hpc
        · simpa using h'
      rcases hs : splitNl cs with _ | ⟨L, Ls⟩
      · exact absurd hs (splitNl_ne_nil cs)
      · rw [show splitNl (c :: cs) = (c :: L) :: Ls from by simp [splitNl, hcn, hs]] at hl
        rcases List.mem_cons.mp hl with h' | h'
        · subst h'
          exact lineNonWs_of_head hcht
        · apply h
          rw [show splitNl (c :: cs) = (c :: L) :: Ls from by simp [splitNl, hcn, hs]]
          simpa using h'

theorem linesNonWs_rStrip : ∀ (t : Text),
    (∀ l ∈ splitNl t, lineNonWs l) →
    ∀ l ∈ splitNl ((t.reverse.dropWhile pyIsSpace).reverse), lineNonWs l := by
  intro t h l hl
  rw [splitNl_reverse] at hl
  simp only [List.mem_reverse, List.mem_map] at hl
  obtain ⟨l', hl', rfl⟩ := hl
  refine lineNonWs_reverse ?_
  refine linesNonWs_dropWhile t.reverse ?_ l' hl'
  intro l'' hl''
  have hmem : l'' ∈ splitNl t.reverse := List.mem_of_mem_tail hl''
  rw [splitNl_reverse] at hmem
  simp only [List.mem_reverse, List.mem_map] at hmem
  obtain ⟨l3, hl3, rfl⟩ := hmem
  exact lineNonWs_reverse (h l3 hl3)

theorem linesNonWs_pyStrip {t : Text} (h : ∀ l ∈ splitNl t, lineNonWs l) :
    ∀ l ∈ splitNl (pyStrip t), lineNonWs l :=
  linesNonWs_rStrip (t.dropWhile pyIsSpace)
    (linesNonWs_dropWhile t (fun l hl => h l (List.mem_of_mem_tail hl)))

theorem isPrefixOf_drop : ∀ (m l : Text), m.isPrefixOf l = true →
    m ++ l.drop m.length = l := by
  intro m
  induction m with
  | nil => intro l _; simp
  | cons c m' ih =>
    intro l h
    cases l with
    | nil => simp [List.isPrefixOf] at h
    | cons d l' =>
      simp only [List.isPrefixOf, Bool.and_eq_true, beq_iff_eq] at h
      obtain ⟨rfl, h2⟩ := h
      simp only [List.length_cons, List.drop_succ_cons, List.cons_append, List.cons.injEq,
        true_and]
      exact ih l' h2

theorem mem_lcp_left : ∀ {a b : Text} {c : Char}, c ∈ lcp a b → c ∈ a := by
  intro a
  induction a with
  | nil => intro b c h; rw [lcp_nil_left] at h; simp at h
  | cons x a' ih =>
    intro b c h
    cases b with
    | nil => simp [lcp] at h
    | cons y b' =>
      simp only [lcp] at h
      by_cases hxy : x = y
      · rw [if_pos hxy] at h
        rcases List.mem_cons.mp h with h | h
        · simp [h]
        · exact List.mem_cons_of_mem x (ih h)
      · rw [if_neg hxy] at h
        simp at h

theorem mem_foldl_lcp : ∀ (is : List Text) (i : Text) (c : Char),
    c ∈ List.foldl lcp i is → c ∈ i := by
  intro is
  induction is with
  | nil => intro i c h; exact h
  | cons j js ih =>
    intro i c h
    rw [List.foldl_cons] at h
    exact mem_lcp_left (ih (lcp i j) c h)

theorem mem_takeWhile_HT : ∀ {l : Text} {c : Char}, c ∈ l.takeWhile isHT → isHT c = true := by
  intro l
  induction l with
  | nil => intro c h; simp [List.takeWhile] at h
  | cons d l' ih =>
    intro c h
    rw [List.takeWhile_cons] at h
    by_cases hd : isHT d
    · rw [if_pos hd] at h
      rcases List.mem_cons.mp h with h | h
      · rw [h]; exact hd
      · exact ih h
    · rw [if_neg hd] at h
      simp at h

theorem marginOf_all_HT : ∀ (ls : List Text), ∀ c ∈ marginOf ls, isHT c = true := by
  intro ls c hc
  simp only [marginOf] at hc
  rcases hm : (ls.filter (fun l => !l.isEmpty)).map (fun l => l.takeWhile isHT)
    with _ | ⟨i, is⟩
  · rw [hm] at hc; simp at hc
  · rw [hm] at hc
    have hi : i ∈ (ls.filter (fun l => !l.isEmpty)).map (fun l => l.takeWhile isHT) := by
      rw [hm]; exact List.mem_cons_self _ _
    simp only [List.mem_map] at hi
    obtain ⟨l0, _, hdef⟩ := hi
    have := mem_foldl_lcp is i c hc
    rw [← hdef] at this
    exact mem_takeWhile_HT this

theorem lineNonWs_dropMargin {m l : Text} (hm : ∀ c ∈ m, isHT c = true)
    (h : lineNonWs l) : lineNonWs (dropMargin m l) := by
  rcases h with rfl | ⟨c, hc, hHT⟩
  · simp only [dropMargin]
    by_cases hp : m.isPrefixOf ([] : Text)
    · rw [if_pos hp]; exact Or.inl (by simp)
    · rw [if_neg hp]; exact Or.inl rfl
  · simp only [dropMargin]
    by_cases hp : m.isPrefixOf l
    · rw [if_pos hp]
      refine Or.inr ⟨c, ?_, hHT⟩
      have hdec := isPrefixOf_drop m l hp
      rw [← hdec] at hc
      rcases List.mem_append.mp hc with h' | h'
      · rw [hm c h'] at hHT; simp at hHT
      · exact h'
    · rw [if_neg hp]; exact Or.inr ⟨c, hc, hHT⟩

theorem lineNonWs_blankWs : ∀ (ls : List Text), ∀ b ∈ blankWs ls, lineNonWs b := by
  intro ls b hb
  simp only [blankWs, List.mem_map] at hb
  obtain ⟨l, _, hdef⟩ := hb
  by_cases hws : wsOnly l
  · rw [if_pos hws] at hdef; subst hdef; exact Or.inl rfl
  · rw [if_neg hws] at hdef; subst hdef
    rcases l with _ | ⟨x, xs⟩
    · exact Or.inl rfl
    · right
      have hws' : wsOnly (x :: xs) = false := by simpa using hws
      simp only [wsOnly, Bool.and_eq_false_iff] at hws'
      rcases hws' with h | h
      · simp at h
      · rw [List.all_eq_false] at h
        obtain ⟨c, hc1, hc2⟩ := h
        exact ⟨c, hc1, by simpa using hc2⟩

theorem dedentLines_lineNonWs : ∀ (ls : List Text), ∀ l' ∈ dedentLines ls, lineNonWs l' := by
  intro ls l' hl'
  simp only [dedentLines] at hl'
  by_cases hm : (marginOf (blankWs ls)).isEmpty
  · rw [if_pos hm] at hl'
    exact lineNonWs_blankWs ls l' hl'
  · rw [if_neg hm] at hl'
    simp only [List.mem_map] at hl'
    obtain ⟨b, hb, rfl⟩ := hl'
    exact lineNonWs_dropMargin (marginOf_all_HT _) (lineNonWs_blankWs ls b hb)

theorem dedentLines_length (ls : List Text) : (dedentLines ls).length = ls.length := by
  simp only [dedentLines]
  by_cases hm : (marginOf (blankWs ls)).isEmpty
  · rw [if_pos hm]; simp [blankWs]
  · rw [if_neg hm]; simp [blankWs]

theorem splitNl_single : ∀ (l : Text), '\n' ∉ l → splitNl l = [l] := by
  intro l
  induction l with
  | nil => intro h; rfl
  | cons c l' ih =>
    intro h
    have hc : c ≠ '\n' := fun h' => h (by simp [h'])
    simp only [splitNl, if_neg hc]
    rw [ih (fun h' => h (List.mem_cons_of_mem c h'))]

theorem splitNl_append_cons : ∀ (l X : Text), '\n' ∉ l →
    splitNl (l ++ '\n' :: X) = l :: splitNl X := by
  intro l
  induction l with
  | nil =>
    intro X h
    simp [splitNl]
  | cons c l' ih =>
    intro X h
    have hc : c ≠ '\n' := fun h' => h (by simp [h'])
    show splitNl (c :: (l' ++ '\n' :: X)) = (c :: l') :: splitNl X
    simp only [splitNl, if_neg hc]
    rw [ih X (fun h' => h (List.mem_cons_of_mem c h'))]

theorem splitNl_joinNl : ∀ (ls : List Text), ls ≠ [] → (∀ l ∈ ls, '\n' ∉ l) →
    splitNl (joinNl ls) = ls := by
  intro ls
  induction ls with
  | nil => intro h _; exact absurd rfl h
  | cons l ls ih =>
    intro _ hfree
    cases ls with
    | nil =>
      show splitNl l = [l]
      exact splitNl_single l (hfree l (List.mem_cons_self _ _))
    | cons m ls' =>
      show splitNl (l ++ '\n' :: joinNl (m :: ls')) = l :: m :: ls'
      rw [splitNl_append_cons l _ (hfree l (List.mem_cons_self _ _))]
      rw [ih (by simp) (fun l' hl' => hfree l' (List.mem_cons_of_mem l hl'))]

theorem linesNonWs_dedent : ∀ (t : Text), ∀ l ∈ splitNl (dedent t), lineNonWs l := by
  intro t l hl
  rw [dedent] at hl
  rw [splitNl_joinNl (dedentLines (splitNl t)) ?_ ?_] at hl
  · exact dedentLines_lineNonWs _ l hl
  · intro h
    have := dedentLines_length (splitNl t)
    rw [h] at this
    have h2 := splitNl_ne_nil t
    cases hsp : splitNl t with
    | nil => exact h2 hsp
    | cons a as => rw [hsp] at this; simp at this
  · intro l' hl'
    intro hmem
    obtain ⟨l0, hl0, hc⟩ := mem_dedentLines _ _ hl' '\n' hmem
    exact splitNl_lines_nl_free t l0 hl0 hc

theorem wsOnly_false_of_lineNonWs {l : Text} (h : lineNonWs l) : wsOnly l = false := by
  rcases h with rfl | ⟨c, hc, hHT⟩
  · rfl
  · simp only [wsOnly, Bool.and_eq_false_iff]
    right
    rw [List.all_eq_false]
    exact ⟨c, hc, by simp [hHT]⟩

theorem cleanL_lines_nonWs (t : Text) : ∀ l ∈ splitNl (cleanL t), lineNonWs l := by
  simp only [cleanL, normalizeNFKC]
  exact linesNonWs_pyStrip (linesNonWs_dedent _)

theorem cleanL_mem_not_scrubbed {t : Text} {c : Char} (h : c ∈ cleanL t) :
    isScrubbed c = false := by
  have := cleanL_no_scrubbed t
  rw [hasScrubbable, List.any_eq_false] at this
  simpa using this c h

theorem cleanL_head_not_space {t : Text} {c : Char} (h : (cleanL t).head? = some c) :
    pyIsSpace c = false := by
  simp only [cleanL, normalizeNFKC] at h
  exact pyStrip_head h

theorem cleanL_last_not_space {t : Text} {c : Char} (h : (cleanL t).getLast? = some c) :
    pyIsSpace c = false := by
  simp only [cleanL, normalizeNFKC] at h
  exact pyStrip_last h

/-- C8, counterexample: the artifact list of the claim is incomplete — one
pass can create a fresh standalone page-number token.  For `x = "1 2\n"` the
first pass yields `clean x = "1"`, which contains no banner, no hyphen-wrap
and no triple newline (pass-for-pass, the banner pass, the hyphen pass and the
newline-collapse condition all leave it unchanged), yet a second pass deletes
the now-trailing digit: `clean (clean x) = "" ≠ clean x`. -/
theorem clean_not_idempotent_example :
    cleanL "1 2\n".data = "1".data ∧
    bannerSub false (cleanL "1 2\n".data) = cleanL "1 2\n".data ∧
    hyphenSub (cleanL "1 2\n".data) = cleanL "1 2\n".data ∧
    hasTripleNl (cleanL "1 2\n".data) = false ∧
    cleanL (cleanL "1 2\n".data) ≠ cleanL "1 2\n".data := by
  refine ⟨by decide, by decide, by decide, by decide, by decide⟩

/-- C8, amended: the cleaning transform is idempotent on inputs whose first
pass leaves no banner, no standalone page-number token, no hyphen-wrap and no
run of three or more newlines — the page-number condition must be added to the
claim's artifact list, since a pass can turn a digit group into a standalone
trailing token. -/
theorem clean_idempotent_on_artifact_free (x : Text)
    (hb : bannerSub false (cleanL x) = cleanL x)
    (hpn : pagenumSub false (cleanL x) = cleanL x)
    (hh : hyphenSub (cleanL x) = cleanL x)
    (hn : hasTripleNl (cleanL x) = false) :
    cleanL (cleanL x) = cleanL x := by
  have hscrub : scrub (cleanL x) = cleanL x :=
    scrub_id (fun c hc => cleanL_mem_not_scrubbed hc)
  have hnl : nlCollapse (cleanL x) = cleanL x := nlCollapse_fix hn
  have hsp : spCollapse (cleanL x) = cleanL x := by
    rw [spCollapse]
    exact (spCollapseAux_fix (cleanL x) (cleanL_no_tab x) (cleanL_no_double x)).1
  have hws : ∀ l ∈ splitNl (cleanL x), wsOnly l = false :=
    fun l hl => wsOnly_false_of_lineNonWs (cleanL_lines_nonWs x l hl)
  have hded : dedent (cleanL x) = cleanL x :=
    dedent_fix hws (fun c hc => cleanL_head_not_space hc)
  have hstr : pyStrip (cleanL x) = cleanL x :=
    pyStrip_fix (fun c hc => cleanL_head_not_space hc)
      (fun c hc => cleanL_last_not_space hc)
  show pyStrip (dedent (spCollapse (nlCollapse (hyphenSub (pagenumSub false
    (bannerSub false (scrub (normalizeNFKC (cleanL x))))))))) = cleanL x
  rw [show normalizeNFKC (cleanL x) = cleanL x from rfl,
    hscrub, hb, hpn, hh, hnl, hsp, hded, hstr]

/-- Witness for the idempotence theorem at the concrete artifact-free input
`"hello world"`. -/
theorem clean_idempotent_witness :
    cleanL (cleanL "hello world".data) = cleanL "hello world".data :=
  clean_idempotent_on_artifact_free "hello world".data
    (by decide) (by decide) (by decide) (by decide)

/-! ### Character classes of plain lowercase words -/

theorem isLower_toNat {c : Char} (h : c.isLower = true) : 97 ≤ c.toNat ∧ c.toNat ≤ 122 := by
  simp [Char.isLower, Char.le_def] at h
  exact h

theorem isAlpha_toNat {c : Char} (h : isAsciiAlpha c = true) :
    (65 ≤ c.toNat ∧ c.toNat ≤ 90) ∨ (97 ≤ c.toNat ∧ c.toNat ≤ 122) := by
  simp [isAsciiAlpha, Char.isAlpha, Char.isLower, Char.isUpper, Char.le_def] at h
  rcases h with h | h
  · exact Or.inl ⟨UInt32.le_toNat_of_le (by decide) h.1, UInt32.toNat_le_of_le (by decide) h.2⟩
  · exact Or.inr ⟨UInt32.le_toNat_of_le (by decide) h.1, UInt32.toNat_le_of_le (by decide) h.2⟩

theorem isAsciiDigit_toNat {c : Char} (h : isAsciiDigit c = true) :
    48 ≤ c.toNat ∧ c.toNat ≤ 57 := by
  simp [isAsciiDigit, Char.isDigit, Char.le_def] at h
  exact ⟨UInt32.le_toNat_of_le (by decide) h.1, UInt32.toNat_le_of_le (by decide) h.2⟩

theorem letter_facts {c : Char}
    (h : (65 ≤ c.toNat ∧ c.toNat ≤ 90) ∨ (97 ≤ c.toNat ∧ c.toNat ≤ 122)) :
    pyIsSpace c = false ∧ isScrubbed c = false ∧ isHT c = false ∧ isAsciiDigit c = false ∧
    c ≠ '|' ∧ c ≠ '-' ∧ c ≠ '\n' := by
  refine ⟨?_, ?_, ?_, ?_, ?_, ?_, ?_⟩
  · simp only [pyIsSpace]
    simp
    rcases h with h | h <;> omega
  · simp only [isScrubbed]
    simp
    rcases h with h | h <;> omega
  · simp only [isHT, Bool.or_eq_false_iff]
    constructor <;> simp <;> intro h' <;> subst h' <;> exact absurd h (by decide)
  · by_cases hd : isAsciiDigit c
    · exfalso
      have h2 := isAsciiDigit_toNat hd
      rcases h with h | h <;> omega
    · simpa using hd
  · intro h'; subst h'; exact absurd h (by decide)
  · intro h'; subst h'; exact absurd h (by decide)
  · intro h'; subst h'; exact absurd h (by decide)

theorem allLower_mem {w : Text} (h : allLower w = true) {c : Char} (hc : c ∈ w) :
    97 ≤ c.toNat ∧ c.toNat ≤ 122 := by
  simp only [allLower, List.all_eq_true] at h
  exact isLower_toNat (h c hc)

theorem lower_word_facts {w : Text} (h : allLower w = true) {c : Char} (hc : c ∈ w) :
    pyIsSpace c = false ∧ isScrubbed c = false ∧ isHT c = false ∧ isAsciiDigit c = false ∧
    c ≠ '|' ∧ c ≠ '-' ∧ c ≠ '\n' :=
  letter_facts (Or.inr (allLower_mem h hc))

/-! ### Newline-free texts -/

theorem hasTriple_append_nlfree {u : Text} (h : '\n' ∉ u) (v : Text) :
    hasTripleNl (u ++ v) = hasTripleNl v := by
  induction u with
  | nil => rfl
  | cons c u' ih =>
    have hc : c ≠ '\n' := fun h' => h (by simp [h'])
    rw [List.cons_append, hasTripleNl_cons_ne hc]
    exact ih (fun h' => h (List.mem_cons_of_mem c h'))

theorem hasTriple_nlfree {t : Text} (h : '\n' ∉ t) : hasTripleNl t = false := by
  have := hasTriple_append_nlfree h []
  simpa using this

theorem nlPre_zero {t : Text} (h : '\n' ∉ t) : nlPre t = 0 := by
  cases t with
  | nil => rfl
  | cons c cs =>
    have hc : c ≠ '\n' := fun h' => h (by simp [h'])
    simp [nlPre, hc]

theorem hasDouble_no_space {t : Text} (h : ' ' ∉ t) : hasDoubleSpace t = false := by
  induction t with
  | nil => rfl
  | cons c cs ih =>
    have hc : c ≠ ' ' := fun h' => h (by simp [h'])
    rw [hasDouble_cons_ne hc]
    exact ih (fun h' => h (List.mem_cons_of_mem c h'))

/-- C1, counterexample: the cleaning transform has no pass that joins a
wrapped line onto one line — the single interior newline of `"ab\ncd"` (one
paragraph wrapped over two lines) is preserved, not collapsed into a space. -/
theorem clean_keeps_interior_newline :
    cleanL "ab\ncd".data = "ab\ncd".data ∧ cleanL "ab\ncd".data ≠ "ab cd".data := by
  refine ⟨by decide, by decide⟩

/-- C1, amended: single interior line breaks are preserved by the cleaning
transform — a paragraph wrapped over two lines stays wrapped; only runs of
three or more newlines are collapsed (to two).  For any two nonempty
lowercase words `w1`, `w2`, cleaning `w1 ++ "\n" ++ w2` returns it
unchanged. -/
theorem clean_preserves_single_newline (w1 w2 : Text)
    (h1 : allLower w1 = true) (h2 : allLower w2 = true)
    (hn1 : w1 ≠ []) (hn2 : w2 ≠ []) :
    cleanL (w1 ++ '\n' :: w2) = w1 ++ '\n' :: w2 := by
  have hmem : ∀ c ∈ w1 ++ '\n' :: w2, c = '\n' ∨ (97 ≤ c.toNat ∧ c.toNat ≤ 122) := by
    intro c hc
    rcases List.mem_append.mp hc with h | h
    · exact Or.inr (allLower_mem h1 h)
    · rcases List.mem_cons.mp h with h | h
      · exact Or.inl h
      · exact Or.inr (allLower_mem h2 h)
  have hnl1 : '\n' ∉ w1 := fun hc => ((lower_word_facts h1 hc).2.2.2.2.2.2) rfl
  have hnl2 : '\n' ∉ w2 := fun hc => ((lower_word_facts h2 hc).2.2.2.2.2.2) rfl
  obtain ⟨a1, w1', rfl⟩ : ∃ a w', w1 = a :: w' := by
    cases w1 with
    | nil => exact absurd rfl hn1
    | cons a w' => exact ⟨a, w', rfl⟩
  obtain ⟨a2, w2', rfl⟩ : ∃ a w', w2 = a :: w' := by
    cases w2 with
    | nil => exact absurd rfl hn2
    | cons a w' => exact ⟨a, w', rfl⟩
  set t := (a1 :: w1') ++ '\n' :: a2 :: w2' with ht
  have hS : scrub t = t := by
    refine scrub_id (fun c hc => ?_)
    rcases hmem c hc with h | h
    · subst h; decide
    · exact (letter_facts (Or.inr h)).2.1
  have hB : bannerSub false t = t := by
    refine bannerSub_id (fun hc => ?_)
    rcases hmem '|' hc with h | h
    · simp at h
    · exact absurd h (by decide)
  have hP : pagenumSub false t = t := by
    refine pagenumSub_id (fun c hc => ?_)
    rcases hmem c hc with h | h
    · subst h; decide
    · exact (letter_facts (Or.inr h)).2.2.2.1
  have hH : hyphenSub t = t := by
    refine hyphenSub_id t (fun hc => ?_)
    rcases hmem '-' hc with h | h
    · simp at h
    · exact absurd h (by decide)
  have hT : hasTripleNl t = false := by
    rw [ht, hasTriple_append_nlfree hnl1, hasTripleNl_cons_nl]
    have hz : nlPre (a2 :: w2') = 0 := nlPre_zero hnl2
    rw [hz, hasTriple_nlfree hnl2]
    simp
  have hN : nlCollapse t = t := nlCollapse_fix hT
  have hnotab : '\t' ∉ t := by
    intro hc
    rcases hmem '\t' hc with h | h
    · simp at h
    · exact absurd h (by decide)
  have hnosp : ' ' ∉ t := by
    intro hc
    rcases hmem ' ' hc with h | h
    · simp at h
    · exact absurd h (by decide)
  have hD : hasDoubleSpace t = false := hasDouble_no_space hnosp
  have hSp : spCollapse t = t := by
    rw [spCollapse]
    exact (spCollapseAux_fix t hnotab hD).1
  have hhead : ∀ c, t.head? = some c → pyIsSpace c = false := by
    intro c hc
    rw [ht] at hc
    simp at hc
    rw [← hc]
    exact (lower_word_facts h1 (List.mem_cons_self _ _)).1
  have hlines : ∀ l ∈ splitNl t, wsOnly l = false := by
    rw [ht, splitNl_append_cons _ _ hnl1, splitNl_single _ hnl2]
    intro l hl
    rcases List.mem_cons.mp hl with h | h
    · subst h
      exact wsOnly_false_of_lineNonWs (lineNonWs_of_head
        (lower_word_facts h1 (List.mem_cons_self _ _)).2.2.1)
    · rcases List.mem_cons.mp h with h | h
      · subst h
        exact wsOnly_false_of_lineNonWs (lineNonWs_of_head
          (lower_word_facts h2 (List.mem_cons_self _ _)).2.2.1)
      · simp at h
  have hDd : dedent t = t := dedent_fix hlines hhead
  have hlast : ∀ c, t.getLast? = some c → pyIsSpace c = false := by
    intro c hc
    have hmem2 : c ∈ t := List.mem_of_mem_getLast? (by rw [hc]; rfl)
    rcases hmem c hmem2 with h | h
    · -- the last character cannot be the separator newline: last of t is last of w2
      rw [ht, List.getLast?_append] at hc
      have : ('\n' :: a2 :: w2').getLast? = (a2 :: w2').getLast? := by
        rw [List.getLast?_cons_cons]
      rw [this] at hc
      rcases hg : (a2 :: w2').getLast? with _ | d
      · rw [List.getLast?_eq_none_iff] at hg
        simp at hg
      · rw [hg] at hc
        simp at hc
        have hd : d ∈ a2 :: w2' := List.mem_of_mem_getLast? (by rw [hg]; rfl)
        rw [← hc]
        exact (lower_word_facts h2 hd).1
    · exact (letter_facts (Or.inr h)).1
  have hSt : pyStrip t = t := pyStrip_fix hhead hlast
  show pyStrip (dedent (spCollapse (nlCollapse (hyphenSub (pagenumSub false
    (bannerSub false (scrub (normalizeNFKC t)))))))) = t
  rw [show normalizeNFKC t = t from rfl, hS, hB, hP, hH, hN, hSp, hDd, hSt]

/-- Witness for the single-newline preservation theorem at `"ab\ncd"`. -/
theorem clean_preserves_single_newline_witness :
    cleanL "ab\ncd".data = "ab".data ++ '\n' :: "cd".data :=
  clean_preserves_single_newline "ab".data "cd".data
    (by decide) (by decide) (by decide) (by decide)

/-! ### Hyphenated line-wrap rejoining -/

theorem hyphenSub_cons_ne {c : Char} (h : c ≠ '-') (cs : Text) :
    hyphenSub (c :: cs) = c :: hyphenSub cs := by
  match cs with
  | [] => rfl
  | [d] => rfl
  | d :: e :: rest =>
    show (if c = '-' ∧ d = '\n' ∧ isAsciiAlpha e = true then e :: hyphenSub rest
      else c :: hyphenSub (d :: e :: rest)) = c :: hyphenSub (d :: e :: rest)
    rw [if_neg (fun hcond => h hcond.1)]

theorem hyphenSub_append {u : Text} (h : '-' ∉ u) (v : Text) :
    hyphenSub (u ++ v) = u ++ hyphenSub v := by
  induction u with
  | nil => rfl
  | cons x u' ih =>
    have hx : x ≠ '-' := fun h' => h (by simp [h'])
    rw [List.cons_append, hyphenSub_cons_ne hx, ih (fun h' => h (List.mem_cons_of_mem x h'))]
    rfl

theorem hyphenSub_join {c : Char} (hc : isAsciiAlpha c = true) (w : Text) :
    hyphenSub ('-' :: '\n' :: c :: w) = c :: hyphenSub w := by
  show (if '-' = '-' ∧ '\n' = '\n' ∧ isAsciiAlpha c = true then c :: hyphenSub w
    else '-' :: hyphenSub ('\n' :: c :: w)) = c :: hyphenSub w
  rw [if_pos ⟨rfl, rfl, hc⟩]

theorem nonspace_text_fix {u : Text}
    (hall : ∀ c ∈ u, pyIsSpace c = false) (hne : u ≠ []) :
    nlCollapse u = u ∧ spCollapse u = u ∧ dedent u = u ∧ pyStrip u = u := by
  have hnl : '\n' ∉ u := fun hc => by
    have := hall '\n' hc
    exact absurd this (by decide)
  have hht : ∀ c ∈ u, isHT c = false := by
    intro c hc
    by_cases h : isHT c
    · exact absurd (hall c hc) (by simp [isHT_py h])
    · simpa using h
  have hnotab : '\t' ∉ u := fun hc => by
    have := hht '\t' hc
    simp [isHT] at this
  have hnosp : ' ' ∉ u := fun hc => by
    have := hht ' ' hc
    simp [isHT] at this
  obtain ⟨a, u', rfl⟩ : ∃ a u', u = a :: u' := by
    cases u with
    | nil => exact absurd rfl hne
    | cons a u' => exact ⟨a, u', rfl⟩
  refine ⟨nlCollapse_fix (hasTriple_nlfree hnl), ?_, ?_, ?_⟩
  · rw [spCollapse]
    exact (spCollapseAux_fix _ hnotab (hasDouble_no_space hnosp)).1
  · refine dedent_fix ?_ ?_
    · rw [splitNl_single _ hnl]
      intro l hl
      rcases List.mem_cons.mp hl with h | h
      · subst h
        exact wsOnly_false_of_lineNonWs (lineNonWs_of_head (hht a (List.mem_cons_self _ _)))
      · simp at h
    · intro c hc
      simp at hc
      rw [← hc]
      exact hall a (List.mem_cons_self _ _)
  · refine pyStrip_fix ?_ ?_
    · intro c hc
      simp at hc
      rw [← hc]
      exact hall a (List.mem_cons_self _ _)
    · intro c hc
      exact hall c (List.mem_of_mem_getLast? (by rw [hc]; rfl))

theorem clean_hyphen_join_general (w1 w2 : Text) (c : Char)
    (h1 : allLower w1 = true) (hc : isAsciiAlpha c = true) (h2 : allLower w2 = true)
    (hn1 : w1 ≠ []) :
    cleanL (w1 ++ '-' :: '\n' :: c :: w2) = w1 ++ c :: w2 := by
  set t := w1 ++ '-' :: '\n' :: c :: w2 with ht
  have hmem : ∀ d ∈ t, d = '-' ∨ d = '\n' ∨ d = c ∨
      (97 ≤ d.toNat ∧ d.toNat ≤ 122) := by
    intro d hd
    rw [ht] at hd
    rcases List.mem_append.mp hd with h | h
    · exact Or.inr (Or.inr (Or.inr (allLower_mem h1 h)))
    · rcases List.mem_cons.mp h with h | h
      · exact Or.inl h
      · rcases List.mem_cons.mp h with h | h
        · exact Or.inr (Or.inl h)
        · rcases List.mem_cons.mp h with h | h
          · exact Or.inr (Or.inr (Or.inl h))
          · exact Or.inr (Or.inr (Or.inr (allLower_mem h2 h)))
  have hcfacts := letter_facts (isAlpha_toNat hc)
  have hS : scrub t = t := by
    refine scrub_id (fun d hd => ?_)
    rcases hmem d hd with h | h | h | h
    · subst h; decide
    · subst h; decide
    · subst h; exact hcfacts.2.1
    · exact (letter_facts (Or.inr h)).2.1
  have hB : bannerSub false t = t := by
    refine bannerSub_id (fun hd => ?_)
    rcases hmem '|' hd with h | h | h | h
    · simp at h
    · simp at h
    · rw [h] at hcfacts
      exact hcfacts.2.2.2.2.1 rfl
    · exact absurd h (by decide)
  have hP : pagenumSub false t = t := by
    refine pagenumSub_id (fun d hd => ?_)
    rcases hmem d hd with h | h | h | h
    · subst h; decide
    · subst h; decide
    · subst h; exact hcfacts.2.2.2.1
    · exact (letter_facts (Or.inr h)).2.2.2.1
  have hd1 : '-' ∉ w1 := fun hd => (lower_word_facts h1 hd).2.2.2.2.2.1 rfl
  have hd2 : '-' ∉ w2 := fun hd => (lower_word_facts h2 hd).2.2.2.2.2.1 rfl
  have hH : hyphenSub t = w1 ++ c :: w2 := by
    rw [ht, hyphenSub_append hd1, hyphenSub_join hc, hyphenSub_id w2 hd2]
  have hfix : ∀ d ∈ w1 ++ c :: w2, pyIsSpace d = false := by
    intro d hd
    rcases List.mem_append.mp hd with h | h
    · exact (lower_word_facts h1 h).1
    · rcases List.mem_cons.mp h with h | h
      · subst h; exact hcfacts.1
      · exact (lower_word_facts h2 h).1
  obtain ⟨hN, hSp, hDd, hSt⟩ := nonspace_text_fix hfix (by
    cases w1 with
    | nil => exact absurd rfl hn1
    | cons a w' => simp)
  show pyStrip (dedent (spCollapse (nlCollapse (hyphenSub (pagenumSub false
    (bannerSub false (scrub (normalizeNFKC t)))))))) = w1 ++ c :: w2
  rw [show normalizeNFKC t = t from rfl, hS, hB, hP, hH, hN, hSp, hDd, hSt]

/-- C5, confirmed: where a line ends in a hyphen immediately followed by a
lowercase letter starting the next line, the transform removes the hyphen and
the newline and joins the fragments into one word: for any nonempty lowercase
word fragments, cleaning `w1 ++ "-\n" ++ c :: w2` (with `c` lowercase) gives
`w1 ++ c :: w2`; in particular `clean "exam-\nple" = "example"`. -/
theorem clean_hyphen_rejoin_lowercase :
    (∀ (w1 w2 : Text) (c : Char), allLower w1 = true → c.isLower = true →
      allLower w2 = true → w1 ≠ [] →
      cleanL (w1 ++ '-' :: '\n' :: c :: w2) = w1 ++ c :: w2) ∧
    cleanL "exam-\nple".data = "example".data := by
  constructor
  · intro w1 w2 c h1 hc h2 hn1
    refine clean_hyphen_join_general w1 w2 c h1 ?_ h2 hn1
    simp only [isAsciiAlpha, Char.isAlpha, hc, Bool.or_true]
  · decide

/-- Witness for the lowercase hyphen-rejoin theorem at `"wrap-\nped"`. -/
theorem clean_hyphen_rejoin_lowercase_witness :
    cleanL "wrap-\nped".data = "wrap".data ++ 'p' :: "ed".data :=
  clean_hyphen_rejoin_lowercase.1 "wrap".data "ed".data 'p'
    (by decide) (by decide) (by decide) (by decide)

/-- C10, confirmed: because the hyphen-rejoin pattern `[a-z]` is compiled with
`re.IGNORECASE`, the rejoin also fires when the continuation line starts with
an uppercase letter — for any ASCII letter `c` (upper or lower case), cleaning
`w1 ++ "-\n" ++ c :: w2` gives `w1 ++ c :: w2`; in particular
`clean "exam-\nPle" = "examPle"`. -/
theorem clean_hyphen_rejoin_any_letter :
    (∀ (w1 w2 : Text) (c : Char), allLower w1 = true → isAsciiAlpha c = true →
      allLower w2 = true → w1 ≠ [] →
      cleanL (w1 ++ '-' :: '\n' :: c :: w2) = w1 ++ c :: w2) ∧
    cleanL "exam-\nPle".data = "examPle".data := by
  constructor
  · exact fun w1 w2 c h1 hc h2 hn1 => clean_hyphen_join_general w1 w2 c h1 hc h2 hn1
  · decide

/-- Witness for the any-letter hyphen-rejoin theorem at the uppercase
continuation `"wrap-\nQed"`. -/
theorem clean_hyphen_rejoin_any_letter_witness :
    cleanL "wrap-\nQed".data = "wrap".data ++ 'Q' :: "ed".data :=
  clean_hyphen_rejoin_any_letter.1 "wrap".data "ed".data 'Q'
    (by decide) (by decide) (by decide) (by decide)

/-! ### Standalone page-number removal -/

theorem lowerSp_mem {w : Text} (h : allLowerSp w = true) {c : Char} (hc : c ∈ w) :
    (97 ≤ c.toNat ∧ c.toNat ≤ 122) ∨ c = ' ' := by
  simp only [allLowerSp, List.all_eq_true] at h
  have := h c hc
  rcases Bool.or_eq_true_iff.mp this with h' | h'
  · exact Or.inl (isLower_toNat h')
  · simp at h'
    exact Or.inr h'

theorem lowerSp_facts {w : Text} (h : allLowerSp w = true) {c : Char} (hc : c ∈ w) :
    isScrubbed c = false ∧ isAsciiDigit c = false ∧ c ≠ '|' ∧ c ≠ '-' ∧ c ≠ '\n' ∧ c ≠ '\t' := by
  rcases lowerSp_mem h hc with h' | h'
  · have hf := letter_facts (Or.inr h')
    exact ⟨hf.2.1, hf.2.2.2.1, hf.2.2.2.2.1, hf.2.2.2.2.2.1, hf.2.2.2.2.2.2, by
      intro hh; subst hh; exact absurd h' (by decide)⟩
  · subst h'
    refine ⟨by decide, by decide, by decide, by decide, by decide, by decide⟩

theorem pagenumSub_append_nondigit : ∀ (u : Text) (p : Bool) (v : Text),
    (∀ c ∈ u, isAsciiDigit c = false) →
    pagenumSub p (u ++ v) =
      u ++ pagenumSub (match u.getLast? with | some c => isWordChar c | none => p) v := by
  intro u
  induction u with
  | nil => intro p v _; rfl
  | cons x u' ih =>
    intro p v h
    rw [List.cons_append,
      pagenumSub_cons_none (matchPageLen_none_head (h x (List.mem_cons_self _ _))),
      ih (isWordChar x) v (fun c hc => h c (List.mem_cons_of_mem x hc))]
    cases u' with
    | nil => rfl
    | cons y u'' =>
      rw [List.cons_append, List.getLast?_cons_cons]
      rcases hl : (y :: u'').getLast? with _ | c
      · exact absurd hl (by simp)
      · simp

theorem matchPage_isolated_42 {b : Char} (hb : pyIsSpace b = false) (p2' : Text) :
    matchPageLen false ('4' :: '2' :: '\n' :: '\n' :: b :: p2') = some 3 := by
  have h4 : takeDigits ('4' :: '2' :: '\n' :: '\n' :: b :: p2') =
      (2, '\n' :: '\n' :: b :: p2') := by
    simp [takeDigits, show isAsciiDigit '4' = true from by decide,
      show isAsciiDigit '2' = true from by decide,
      show isAsciiDigit '\n' = false from by decide]
  have hsp : takeSpacesList ('\n' :: '\n' :: b :: p2') = (['\n', '\n'], b :: p2') := by
    simp [takeSpacesList, show pyIsSpace '\n' = true from by decide, hb]
  have hln : lastNlIdx ['\n', '\n'] = some 1 := by decide
  simp [matchPageLen, h4, hsp, hln]

theorem pagenum_isolated_42 {b : Char} (hb : pyIsSpace b = false) (p2' : Text)
    (hnd : ∀ c ∈ b :: p2', isAsciiDigit c = false) :
    pagenumSub false ('4' :: '2' :: '\n' :: '\n' :: b :: p2') =
      '\n' :: b :: p2' := by
  rw [pagenumSub_cons_some (matchPage_isolated_42 hb p2')]
  have htake : (('4' :: '2' :: '\n' :: '\n' :: b :: p2').take 3).getLastD ' ' = '\n' := rfl
  rw [htake]
  have hdrop : ('4' :: '2' :: '\n' :: '\n' :: b :: p2').drop 3 = '\n' :: b :: p2' := rfl
  rw [hdrop]
  rw [show isWordChar '\n' = false from by decide]
  rw [pagenumSub_cons_none (matchPageLen_none_head (by decide))]
  rw [show isWordChar '\n' = false from by decide]
  rw [pagenumSub_id hnd]

theorem nlCollapse_append_nlfree {u : Text} (h : '\n' ∉ u) (v : Text) :
    nlCollapseAux 0 (u ++ v) = u ++ nlCollapseAux 0 v := by
  induction u with
  | nil => rfl
  | cons c u' ih =>
    have hc : c ≠ '\n' := fun h' => h (by simp [h'])
    rw [List.cons_append]
    show nlCollapseAux 0 (c :: (u' ++ v)) = c :: (u' ++ nlCollapseAux 0 v)
    simp only [nlCollapseAux, if_neg hc, nlEmit]
    rw [if_neg (by omega)]
    simp only [List.replicate_zero, List.nil_append]
    rw [ih (fun h' => h (List.mem_cons_of_mem c h'))]

theorem nlCollapseAux0_nlfree {u : Text} (h : '\n' ∉ u) : nlCollapseAux 0 u = u := by
  have h0 : nlCollapseAux 0 ([] : Text) = [] := by decide
  have := nlCollapse_append_nlfree h []
  simpa [h0] using this

theorem nlCollapse_three {b : Char} (hb : b ≠ '\n') (p2' : Text) (h2 : '\n' ∉ p2') :
    nlCollapseAux 0 ('\n' :: '\n' :: '\n' :: b :: p2') = '\n' :: '\n' :: b :: p2' := by
  show nlCollapseAux 0 ('\n' :: '\n' :: '\n' :: b :: p2') = '\n' :: '\n' :: b :: p2'
  rw [show nlCollapseAux 0 ('\n' :: '\n' :: '\n' :: b :: p2') =
    nlCollapseAux 3 (b :: p2') from by simp [nlCollapseAux]]
  simp only [nlCollapseAux, if_neg hb, nlEmit]
  rw [if_pos (by omega)]
  rw [nlCollapseAux0_nlfree h2]
  rfl

theorem clean_page_family (p1 p2 : Text)
    (h1 : allLowerSp p1 = true) (h2 : allLowerSp p2 = true)
    (hd1 : hasDoubleSpace p1 = false) (hd2 : hasDoubleSpace p2 = false)
    (hh1 : ∀ c, p1.head? = some c → c.isLower = true)
    (hh2 : ∀ c, p2.head? = some c → c.isLower = true)
    (hl2 : ∀ c, p2.getLast? = some c → c.isLower = true)
    (hne1 : p1 ≠ []) (hne2 : p2 ≠ []) :
    cleanL (p1 ++ '\n' :: '\n' :: '4' :: '2' :: '\n' :: '\n' :: p2) =
      p1 ++ '\n' :: '\n' :: p2 := by
  obtain ⟨a, p1', rfl⟩ : ∃ a p1', p1 = a :: p1' := by
    cases p1 with
    | nil => exact absurd rfl hne1
    | cons a p1' => exact ⟨a, p1', rfl⟩
  obtain ⟨b, p2', rfl⟩ : ∃ b p2', p2 = b :: p2' := by
    cases p2 with
    | nil => exact absurd rfl hne2
    | cons b p2' => exact ⟨b, p2', rfl⟩
  have ha : a.isLower = true := hh1 a rfl
  have hbl : b.isLower = true := hh2 b rfl
  have haf := letter_facts (Or.inr (isLower_toNat ha))
  have hbf := letter_facts (Or.inr (isLower_toNat hbl))
  have hmem : ∀ c, c ∈ (a :: p1') ++ '\n' :: '\n' :: '4' :: '2' :: '\n' :: '\n' :: b :: p2' →
      c ∈ a :: p1' ∨ c ∈ b :: p2' ∨ c = '\n' ∨ c = '4' ∨ c = '2' := by
    intro c hc
    rcases List.mem_append.mp hc with h | h
    · exact Or.inl h
    · simp only [List.mem_cons] at h
      rcases h with h | h | h | h | h | h | h | h
      · exact Or.inr (Or.inr (Or.inl h))
      · exact Or.inr (Or.inr (Or.inl h))
      · exact Or.inr (Or.inr (Or.inr (Or.inl h)))
      · exact Or.inr (Or.inr (Or.inr (Or.inr h)))
      · exact Or.inr (Or.inr (Or.inl h))
      · exact Or.inr (Or.inr (Or.inl h))
      · exact Or.inr (Or.inl (by simp [h]))
      · exact Or.inr (Or.inl (List.mem_cons_of_mem b h))
  have hsc : ∀ c ∈ (a :: p1') ++ '\n' :: '\n' :: '4' :: '2' :: '\n' :: '\n' :: b :: p2',
      isScrubbed c = false := by
    intro c hc
    rcases hmem c hc with h | h | h | h | h
    · exact (lowerSp_facts h1 h).1
    · exact (lowerSp_facts h2 h).1
    · subst h; decide
    · subst h; decide
    · subst h; decide
  have hbar : '|' ∉ (a :: p1') ++ '\n' :: '\n' :: '4' :: '2' :: '\n' :: '\n' :: b :: p2' := by
    intro hc
    rcases hmem '|' hc with h | h | h | h | h
    · exact (lowerSp_facts h1 h).2.2.1 rfl
    · exact (lowerSp_facts h2 h).2.2.1 rfl
    · exact absurd h (by decide)
    · exact absurd h (by decide)
    · exact absurd h (by decide)
  have hnd1 : ∀ c ∈ (a :: p1') ++ ['\n', '\n'], isAsciiDigit c = false := by
    intro c hc
    rcases List.mem_append.mp hc with h | h
    · exact (lowerSp_facts h1 h).2.1
    · rcases List.mem_cons.mp h with h' | h'
      · subst h'; decide
      · simp at h'; subst h'; decide
  have hnd2 : ∀ c ∈ b :: p2', isAsciiDigit c = false := fun c hc => (lowerSp_facts h2 hc).2.1
  have hglu : ((a :: p1') ++ ['\n', '\n']).getLast? = some '\n' := by
    rw [List.getLast?_append]
    rfl
  have hpg : pagenumSub false ((a :: p1') ++ '\n' :: '\n' :: '4' :: '2' :: '\n' :: '\n' :: b :: p2') =
      (a :: p1') ++ '\n' :: '\n' :: '\n' :: b :: p2' := by
    have hshape : (a :: p1') ++ '\n' :: '\n' :: '4' :: '2' :: '\n' :: '\n' :: b :: p2' =
        ((a :: p1') ++ ['\n', '\n']) ++ ('4' :: '2' :: '\n' :: '\n' :: b :: p2') := by
      simp
    rw [hshape, pagenumSub_append_nondigit _ false _ hnd1, hglu]
    show ((a :: p1') ++ ['\n', '\n']) ++ pagenumSub (isWordChar '\n') _ = _
    rw [show isWordChar '\n' = false from by decide,
      pagenum_isolated_42 hbf.1 p2' hnd2]
    simp
  have hnl1 : '\n' ∉ a :: p1' := fun h => (lowerSp_facts h1 h).2.2.2.2.1 rfl
  have hnl2 : '\n' ∉ p2' := fun h =>
    (lowerSp_facts h2 (List.mem_cons_of_mem b h)).2.2.2.2.1 rfl
  have hhy : '-' ∉ (a :: p1') ++ '\n' :: '\n' :: '\n' :: b :: p2' := by
    intro hc
    rcases List.mem_append.mp hc with h | h
    · exact (lowerSp_facts h1 h).2.2.2.1 rfl
    · simp only [List.mem_cons] at h
      rcases h with h | h | h | h | h
      · exact absurd h (by decide)
      · exact absurd h (by decide)
      · exact absurd h (by decide)
      · exact (lowerSp_facts h2 (List.mem_cons.mpr (Or.inl h))).2.2.2.1 rfl
      · exact (lowerSp_facts h2 (List.mem_cons_of_mem b h)).2.2.2.1 rfl
  have hnlc : nlCollapse ((a :: p1') ++ '\n' :: '\n' :: '\n' :: b :: p2') =
      (a :: p1') ++ '\n' :: '\n' :: b :: p2' := by
    simp only [nlCollapse]
    rw [nlCollapse_append_nlfree hnl1, nlCollapse_three hbf.2.2.2.2.2.2 p2' hnl2]
  have hdbl : hasDoubleSpace ((a :: p1') ++ '\n' :: '\n' :: b :: p2') = false := by
    refine hasDouble_append_nl hd1 ?_
    rw [hasDouble_cons_ne (by decide)]
    exact hd2
  have htab : '\t' ∉ (a :: p1') ++ '\n' :: '\n' :: b :: p2' := by
    intro hc
    rcases List.mem_append.mp hc with h | h
    · exact (lowerSp_facts h1 h).2.2.2.2.2 rfl
    · simp only [List.mem_cons] at h
      rcases h with h | h | h | h
      · exact absurd h (by decide)
      · exact absurd h (by decide)
      · exact (lowerSp_facts h2 (List.mem_cons.mpr (Or.inl h))).2.2.2.2.2 rfl
      · exact (lowerSp_facts h2 (List.mem_cons_of_mem b h)).2.2.2.2.2 rfl
  have hsp : spCollapse ((a :: p1') ++ '\n' :: '\n' :: b :: p2') =
      (a :: p1') ++ '\n' :: '\n' :: b :: p2' :=
    (spCollapseAux_fix _ htab hdbl).1
  have hsplit : splitNl ((a :: p1') ++ '\n' :: '\n' :: b :: p2') =
      [a :: p1', [], b :: p2'] := by
    rw [splitNl_append_cons _ _ hnl1]
    have h3 : splitNl ('\n' :: b :: p2') = [] :: splitNl (b :: p2') := by
      simp [splitNl]
    rw [h3, splitNl_single _ (fun h => hnl2 (by
      rcases List.mem_cons.mp h with h' | h'
      · exact absurd h'.symm hbf.2.2.2.2.2.2
      · exact h'))]
  have hws : ∀ l ∈ splitNl ((a :: p1') ++ '\n' :: '\n' :: b :: p2'), wsOnly l = false := by
    intro l hl
    rw [hsplit] at hl
    simp only [List.mem_cons, List.not_mem_nil, or_false] at hl
    rcases hl with h | h | h
    · subst h; simp [wsOnly, haf.2.2.1]
    · subst h; decide
    · subst h; simp [wsOnly, hbf.2.2.1]
  have hhd : ∀ c, ((a :: p1') ++ '\n' :: '\n' :: b :: p2').head? = some c →
      pyIsSpace c = false := by
    intro c hc
    simp only [List.cons_append, List.head?_cons, Option.some.injEq] at hc
    subst hc
    exact haf.1
  have hdd : dedent ((a :: p1') ++ '\n' :: '\n' :: b :: p2') =
      (a :: p1') ++ '\n' :: '\n' :: b :: p2' :=
    dedent_fix hws hhd
  have hlast : ∀ c, ((a :: p1') ++ '\n' :: '\n' :: b :: p2').getLast? = some c →
      pyIsSpace c = false := by
    intro c hc
    rw [List.getLast?_append] at hc
    have h3 : ('\n' :: '\n' :: b :: p2').getLast? = (b :: p2').getLast? := by
      rw [List.getLast?_cons_cons, List.getLast?_cons_cons]
    rw [h3] at hc
    rcases hg : (b :: p2').getLast? with _ | d
    · rw [List.getLast?_eq_none_iff] at hg
      simp at hg
    · rw [hg] at hc
      simp only [Option.or_some, Option.some.injEq] at hc
      subst hc
      exact (letter_facts (Or.inr (isLower_toNat (hl2 d hg)))).1
  have hstr : pyStrip ((a :: p1') ++ '\n' :: '\n' :: b :: p2') =
      (a :: p1') ++ '\n' :: '\n' :: b :: p2' :=
    pyStrip_fix hhd hlast
  show pyStrip (dedent (spCollapse (nlCollapse (hyphenSub (pagenumSub false
    (bannerSub false (scrub (normalizeNFKC _)))))))) = _
  rw [show normalizeNFKC ((a :: p1') ++ '\n' :: '\n' :: '4' :: '2' :: '\n' :: '\n' :: b :: p2') =
    (a :: p1') ++ '\n' :: '\n' :: '4' :: '2' :: '\n' :: '\n' :: b :: p2' from rfl]
  rw [scrub_id hsc, bannerSub_id hbar, hpg, hyphenSub_id _ hhy, hnlc, hsp, hdd, hstr]

/-- C3 (amended): the page-number pass removes a standalone 1-to-3-digit token
occupying an isolated line between two paragraphs (`"42"` on its own line
disappears, with the paragraph break kept) and a trailing one (`"chapter 42"`
becomes `"chapter"`); digits embedded mid-sentence and followed by further
text on the same line are preserved unchanged (`"chapter 42 begins"` is a
fixed point of the transform).  A line-final digit run is removed even when
it is not a standalone token, since `\b` also holds after punctuation. -/
theorem clean_page_number_stripping :
    (∀ p1 p2 : Text,
      allLowerSp p1 = true → allLowerSp p2 = true →
      hasDoubleSpace p1 = false → hasDoubleSpace p2 = false →
      (p1.head?.getD 'x').isLower = true →
      (p2.head?.getD 'x').isLower = true →
      (p2.getLast?.getD 'x').isLower = true →
      p1 ≠ [] → p2 ≠ [] →
      cleanL (p1 ++ '\n' :: '\n' :: '4' :: '2' :: '\n' :: '\n' :: p2) =
        p1 ++ '\n' :: '\n' :: p2) ∧
    cleanL "chapter 42 begins".data = "chapter 42 begins".data ∧
    cleanL "chapter 42".data = "chapter".data := by
  refine ⟨?_, by decide, by decide⟩
  intro p1 p2 h1 h2 hd1 hd2 hh1 hh2 hl2 hne1 hne2
  refine clean_page_family p1 p2 h1 h2 hd1 hd2 ?_ ?_ ?_ hne1 hne2
  · intro c hc; rw [hc] at hh1; simpa using hh1
  · intro c hc; rw [hc] at hh2; simpa using hh2
  · intro c hc; rw [hc] at hl2; simpa using hl2

theorem clean_page_number_stripping_witness :
    cleanL ("first paragraph".data ++ '\n' :: '\n' :: '4' :: '2' :: '\n' :: '\n' ::
        "second paragraph".data) =
      "first paragraph".data ++ '\n' :: '\n' :: "second paragraph".data :=
  clean_page_number_stripping.1 "first paragraph".data "second paragraph".data
    (by decide) (by decide) (by decide) (by decide) (by decide) (by decide) (by decide)
    (by decide) (by decide)

/-! ### Banner removal is not anchored to the start of a line -/

theorem matchBanner_at_head (rest : Text) :
    matchBannerLen false ("D U N E | A D V E N T U R E S".data ++ '\n' :: rest) =
      some 30 := rfl

/-- C4 counterexample: the banner pattern is not anchored to the start of a
line.  On `"x D U N E | A D V E N T U R E S\nrest"` the banner pass deletes
from the `D` through the newline, leaving `"x rest"`: part of the first line
is removed (so not "only whole lines"), and the text `"x "` on that
non-matching line is merged with the next line rather than left untouched. -/
theorem clean_banner_not_anchored :
    bannerSub false "x D U N E | A D V E N T U R E S\nrest".data = "x rest".data ∧
    cleanL "x D U N E | A D V E N T U R E S\nrest".data = "x rest".data := by
  constructor
  · decide
  · decide

/-- C4 (amended): the banner pass deletes, case-insensitively, from each
`\b`-anchored occurrence of `D U N E \| A D V E N T U R E S` through the
first following newline; the match may begin in the middle of a line (it is
only terminated by, not anchored to, line boundaries).  When the banner does
occupy a whole line the effect is whole-line removal, and a preceding
fragment such as `"x "` survives with the match spliced out. -/
theorem clean_banner_removes_to_newline (rest : Text) :
    bannerSub false ("D U N E | A D V E N T U R E S".data ++ '\n' :: rest) =
      bannerSub false rest ∧
    bannerSub false ('x' :: ' ' :: ("D U N E | A D V E N T U R E S".data ++ '\n' :: rest)) =
      'x' :: ' ' :: bannerSub false rest := by
  have h1 : bannerSub false ("D U N E | A D V E N T U R E S".data ++ '\n' :: rest) =
      bannerSub false rest := by
    rw [bannerSub_cons_some (matchBanner_at_head rest)]
    rfl
  refine ⟨h1, ?_⟩
  rw [bannerSub_cons_none (show matchBannerLen false ('x' ::
    (' ' :: ("D U N E | A D V E N T U R E S".data ++ '\n' :: rest))) = none from rfl)]
  rw [show isWordChar 'x' = true from by decide]
  rw [bannerSub_cons_none (show matchBannerLen true
    (' ' :: ("D U N E | A D V E N T U R E S".data ++ '\n' :: rest)) = none from rfl)]
  rw [show isWordChar ' ' = false from by decide]
  rw [h1]

/-- C9: no partial output.  If the source cannot be read, the run fails with
an error and no filesystem is produced (in particular the destination is not
written); and every successful run produces exactly the filesystem obtained
by writing the fully transformed text to the destination after the whole
in-memory transform, leaving every other path unchanged.  (`errors="ignore"`
makes decoding total, so a decode failure cannot occur; the model treats the
final `write_text` as atomic.) -/
theorem clean_run_no_partial_output (fs : FS) (pin pout : String) :
    (fsRead fs pin = none →
      cleanRun fs pin pout = Except.error "No such file or directory") ∧
    (∀ fs', cleanRun fs pin pout = Except.ok fs' →
      ∃ raw, fsRead fs pin = some raw ∧
        fs' = fsWrite fs pout (cleanText raw) ∧
        fsRead fs' pout = some (cleanText raw) ∧
        ∀ q, q ≠ pout → fsRead fs' q = fsRead fs q) := by
  constructor
  · intro h
    simp [cleanRun, h]
  · intro fs' h
    cases hr : fsRead fs pin with
    | none => simp [cleanRun, hr] at h
    | some raw =>
      simp only [cleanRun, hr, Except.ok.injEq] at h
      refine ⟨raw, rfl, h.symm, ?_, ?_⟩
      · rw [← h]
        simp [fsRead, fsWrite]
      · intro q hq
        rw [← h]
        simp [fsRead, fsWrite, hq]

theorem clean_run_no_partial_output_witness :
    cleanRun [] "in.txt" "out.txt" = Except.error "No such file or directory" ∧
    fsRead (fsWrite [("in.txt", "a")] "out.txt" (cleanText "a")) "in.txt" =
      fsRead [("in.txt", "a")] "in.txt" := by
  refine ⟨(clean_run_no_partial_output [] "in.txt" "out.txt").1 rfl, ?_⟩
  obtain ⟨raw, hraw, hfs, hout, hq⟩ :=
    (clean_run_no_partial_output [("in.txt", "a")] "in.txt" "out.txt").2
      (fsWrite [("in.txt", "a")] "out.txt" (cleanText "a")) rfl
  exact hq "in.txt" (by decide)

/-- C3 counterexample: the page-number pass deletes a digit run that is not a
standalone token.  In `"pi is 3.14\nis neat"` the digits `14` are part of the
number `3.14` inside a sentence, yet `\b` holds after the non-word character
`.` and the run ends the line, so the pass removes it. -/
theorem clean_embedded_digits_deleted :
    pagenumSub false "pi is 3.14\nis neat".data = "pi is 3.\nis neat".data ∧
    cleanL "pi is 3.14\nis neat".data = "pi is 3.\nis neat".data := by
  constructor
  · decide
  · decide
